import Mathlib

/-!
# Account registry of the wallet store (`src/store/index.js`)

A shallow embedding of the Vuex store: its state, getters, mutations and
actions, followed by the properties of the account registry.

Conventions of the embedding

* A JavaScript array is a list of slots. A slot is `some account`, or `none`
  for an empty position (a hole, read as `undefined`). Holes only arise when
  `SET_ACCOUNT` writes past the end of the array.
* Reading `.address` of `undefined` raises a `TypeError`. Getters that can
  raise return `Except JsError _`; mutations and actions that can raise
  return an `Outcome`, which carries the state at the moment of the raise.
* Array indices are integers (`Int`), `-1` standing for "none".
* `fWallet` (the wallet plugin) is a parameter: `toChecksumAddress` and
  `getBalance` are arbitrary total functions.
-/

namespace Store

/-! ## Data model -/

/-- Result of `fWallet.getBalance`. -/
structure Balance where
  balance : String
  totalValue : String
deriving DecidableEq, Repr

/-- The wallet plugin `fWallet`, as far as the store uses it. -/
structure Wallet where
  toChecksumAddress : String → String
  getBalance : String → Balance

/-- A keystore object handed to `ADD_ACCOUNT`; only `address` is read. -/
structure Keystore where
  address : String
  body : String
deriving DecidableEq, Repr

/-- An element of `state.accounts`. Every property but `address` may be absent;
`rest` stands for any further own properties, which object spread carries along. -/
structure Account where
  address : String
  balance : Option String
  totalBalance : Option String
  keystore : Option Keystore
  isLedgerAccount : Option Bool
  name : Option String
  rest : List (String × String)
deriving DecidableEq, Repr

/-- The payload of `SET_ACCOUNT`: an account record with an `index` property
(`none` when the property is missing). -/
structure AccountData where
  index : Option Int
  account : Account
deriving DecidableEq, Repr

/-- The payload of `UPDATE_ACCOUNT`. -/
structure UpdateRequest where
  address : String
  name : Option String
  order : Option Int
deriving DecidableEq, Repr

/-- The payload of `SET_BREAKPOINT`. -/
structure Breakpoint where
  code : String
  value : String
deriving DecidableEq, Repr

/-- An array position: an account, or `none` for a hole. -/
abbrev Slot := Option Account

/-- The `state` object of the store. -/
structure State where
  breakpoints : List (String × Breakpoint)
  tokenPrice : Int
  currency : String
  fractionDigits : Int
  accounts : List Slot
  activeAccountIndex : Int
  activeAccountAddress : String
deriving DecidableEq, Repr

/-- The initial `state` of the store. -/
def initialState : State :=
  { breakpoints := [], tokenPrice := 0, currency := "USD", fractionDigits := 2,
    accounts := [], activeAccountIndex := -1, activeAccountAddress := "" }

/-- The only exception the store itself can raise. -/
inductive JsError where
  | typeError
deriving DecidableEq, Repr

/-- How a mutation or an action ends: normally, or by a raised `TypeError`.
Either way it carries the state at that moment. -/
inductive Outcome where
  | done (s : State)
  | thrown (s : State)
deriving DecidableEq, Repr

/-- The state an outcome leaves behind. -/
def Outcome.state : Outcome → State
  | .done s => s
  | .thrown s => s

/-! ## Array primitives -/

/-- The call `Array.prototype.splice(start, deleteCount, ...items)`: the array afterwards and
the array of removed elements. -/
def splice {α : Type} (xs : List α) (start : Int) (deleteCount : Int) (items : List α) :
    List α × List α :=
  let len : Int := xs.length
  let actualStart : Nat :=
    if start < 0 then (max (len + start) 0).toNat else (min start len).toNat
  let actualDeleteCount : Nat := (min (max deleteCount 0) (len - actualStart)).toNat
  (xs.take actualStart ++ items ++ xs.drop (actualStart + actualDeleteCount),
   (xs.drop actualStart).take actualDeleteCount)

/-- The call `Vue.set(target, key, val)` of Vue 2 on an array, for a valid array index `key`:
`target.length = Math.max(target.length, key); target.splice(key, 1, val)`. -/
def vueSet (target : List Slot) (key : Nat) (val : Slot) : List Slot :=
  (splice (target ++ List.replicate (key - target.length) none) key 1 [val]).1

/-- The call `accounts.find((_item) => _item.address === address)`: the first account with
that address, `none` for `undefined`; raises on a hole met before a match. -/
def findByAddress : List Slot → String → Except JsError (Option Account)
  | [], _ => .ok none
  | none :: _, _ => .error .typeError
  | some item :: rest, address =>
    if item.address = address then .ok (some item) else findByAddress rest address

/-- The scan `for (i ...) if (accounts[i].address === address) ... break`, started at
position `i` on the remaining slots: the first matching position, if any. -/
def scanByAddress : List Slot → String → Nat → Except JsError (Option Nat)
  | [], _, _ => .ok none
  | none :: _, _, _ => .error .typeError
  | some item :: rest, address, i =>
    if item.address = address then .ok (some i) else scanByAddress rest address (i + 1)

/-- The read `accounts[i]` for an integer `i`; `none` for `undefined`. -/
def elemAt (xs : List Slot) (i : Int) : Slot :=
  if i < 0 then none else (xs.get? i.toNat).join

/-! ## Getters -/

/-- Getter `accounts`. -/
def accounts (s : State) : List Slot := s.accounts

/-- Getter `currentAccount`; `none` for `null` or `undefined`. -/
def currentAccount (s : State) : Option Account :=
  if s.activeAccountIndex > -1 then elemAt s.accounts s.activeAccountIndex else none

/-- Getter `currentAccountAddress`. -/
def currentAccountAddress (s : State) : String := s.activeAccountAddress

/-- Getter `getAccountByAddress`. -/
def getAccountByAddress (W : Wallet) (s : State) (_address : String) :
    Except JsError (Option Account) :=
  let address := W.toChecksumAddress _address
  findByAddress s.accounts address

/-- The object returned by `getAccountAndIndexByAddress`. -/
structure Lookup where
  account : Option Account
  index : Int
deriving DecidableEq, Repr

/-- Getter `getAccountAndIndexByAddress`. -/
def getAccountAndIndexByAddress (W : Wallet) (s : State) (_address : String) :
    Except JsError Lookup :=
  let address := W.toChecksumAddress _address
  match scanByAddress s.accounts address 0 with
  | .error e => .error e
  | .ok none => .ok { account := none, index := -1 }
  | .ok (some i) => .ok { account := elemAt s.accounts i, index := i }

/-! ## Mutations -/

/-- Mutation `SET_BREAKPOINT`: `{...breakpoints, [code]: _breakpoint}`. -/
def SET_BREAKPOINT (s : State) (_breakpoint : Breakpoint) : State :=
  let merged :=
    if s.breakpoints.any (fun kv => kv.1 == _breakpoint.code) then
      s.breakpoints.map (fun kv => if kv.1 == _breakpoint.code then (kv.1, _breakpoint) else kv)
    else s.breakpoints ++ [(_breakpoint.code, _breakpoint)]
  { s with breakpoints := merged }

/-- Mutation `SET_TOKEN_PRICE`. -/
def SET_TOKEN_PRICE (s : State) (_tokenPrice : Int) : State :=
  { s with tokenPrice := _tokenPrice }

/-- Mutation `SET_CURRENCY`. -/
def SET_CURRENCY (s : State) (_currency : String) : State :=
  { s with currency := _currency }

/-- Mutation `SET_FRACTION_DIGITS`. -/
def SET_FRACTION_DIGITS (s : State) (_fractionDigits : Int) : State :=
  { s with fractionDigits := _fractionDigits }

/-- Mutation `SET_ACTIVE_ACCOUNT_BY_ADDRESS`. The index is reset before the scan,
so a raise during the scan leaves it at `-1`. -/
def SET_ACTIVE_ACCOUNT_BY_ADDRESS (W : Wallet) (s : State) (_address : String) : Outcome :=
  let address := W.toChecksumAddress _address
  let s1 := { s with activeAccountIndex := -1 }
  match scanByAddress s.accounts address 0 with
  | .error _ => .thrown s1
  | .ok none => .done s1
  | .ok (some i) => .done { s1 with activeAccountIndex := i }

/-- Mutation `SET_ACTIVE_ACCOUNT_ADDRESS`. -/
def SET_ACTIVE_ACCOUNT_ADDRESS (W : Wallet) (s : State) (_address : String) : State :=
  { s with activeAccountAddress := W.toChecksumAddress _address }

/-- Mutation `DEACTIVATE_ACTIVE_ACCOUNT`. -/
def DEACTIVATE_ACTIVE_ACCOUNT (s : State) : State :=
  { s with activeAccountIndex := -1, activeAccountAddress := "" }

/-- Mutation `APPEND_ACCOUNT`. -/
def APPEND_ACCOUNT (s : State) (_account : Account) : Outcome :=
  match findByAddress s.accounts _account.address with
  | .error _ => .thrown s
  | .ok (some _) => .done s
  | .ok none => .done { s with accounts := s.accounts ++ [some _account] }

/-- Mutation `REMOVE_ACTIVE_ACCOUNT`. -/
def REMOVE_ACTIVE_ACCOUNT (s : State) : State :=
  if s.activeAccountIndex > -1 then
    { s with accounts := (splice s.accounts s.activeAccountIndex 1 []).1,
             activeAccountIndex := -1 }
  else s

/-- Mutation `SET_ACCOUNT`. The stored record is the payload without `index`. -/
def SET_ACCOUNT (s : State) (_accountData : AccountData) : State :=
  match _accountData.index with
  | none => s
  | some index =>
    if index > -1 then
      { s with accounts := vueSet s.accounts index.toNat (some _accountData.account) }
    else s

/-- Mutation `MOVE_ACCOUNT`. -/
def MOVE_ACCOUNT (s : State) (from_ to_ : Int) : State :=
  let accountsLen : Int := s.accounts.length
  if from_ ≠ to_ ∧ from_ ≥ 0 ∧ to_ ≥ 0 ∧ from_ < accountsLen ∧ to_ < accountsLen then
    let removed := splice s.accounts from_ 1 []
    { s with accounts := (splice removed.1 to_ 0 [(removed.2.get? 0).join]).1 }
  else s

/-! ## Actions -/

/-- Action `ADD_ACCOUNT`. -/
def ADD_ACCOUNT (W : Wallet) (s : State) (_keystore : Keystore) : Outcome :=
  let address := W.toChecksumAddress _keystore.address
  let balance := W.getBalance address
  let account : Account :=
    { address := address,
      balance := some balance.balance,
      totalBalance := some balance.totalValue,
      keystore := some _keystore,
      isLedgerAccount := none,
      name := none,
      rest := [] }
  APPEND_ACCOUNT s account

/-- Action `ADD_LEDGER_ACCOUNT`. -/
def ADD_LEDGER_ACCOUNT (W : Wallet) (s : State) (_account : Account) : Outcome :=
  let address := W.toChecksumAddress _account.address
  match getAccountByAddress W s address with
  | .error _ => .thrown s
  | .ok (some _) => .done s
  | .ok none =>
    let balance := W.getBalance address
    let account : Account :=
      { _account with
        address := address,
        balance := some balance.balance,
        totalBalance := some balance.totalValue,
        isLedgerAccount := some true }
    APPEND_ACCOUNT s account

/-- The loop of `UPDATE_ACCOUNTS_BALANCES` with `n` iterations left, at position `i`.
`accounts` is the live array of the state, so `accounts[i]` is read from the
current state. -/
def updateAccountsBalancesLoop (W : Wallet) : Nat → Nat → State → Outcome
  | 0, _, s => .done s
  | n + 1, i, s =>
    match elemAt s.accounts i with
    | none => .thrown s
    | some account =>
      let balance := W.getBalance account.address
      updateAccountsBalancesLoop W n (i + 1)
        (SET_ACCOUNT s
          { index := some (i : Int),
            account := { account with
              balance := some balance.balance,
              totalBalance := some balance.totalValue } })

/-- Action `UPDATE_ACCOUNTS_BALANCES`; `len1` is read once, before the loop. -/
def UPDATE_ACCOUNTS_BALANCES (W : Wallet) (s : State) : Outcome :=
  updateAccountsBalancesLoop W (accounts s).length 0 s

/-- Action `UPDATE_ACCOUNT_BALANCE`; `_account` is `none` when the argument is omitted. -/
def UPDATE_ACCOUNT_BALANCE (W : Wallet) (s : State) (_account : Option Account) : Outcome :=
  match (_account <|> currentAccount s) with
  | none => .done s
  | some account =>
    match getAccountAndIndexByAddress W s account.address with
    | .error _ => .thrown s
    | .ok r =>
      let balance := W.getBalance account.address
      if r.index > -1 then
        .done (SET_ACCOUNT s
          { index := some r.index,
            account := { account with
              balance := some balance.balance,
              totalBalance := some balance.totalValue } })
      else .done s

/-- Action `UPDATE_ACCOUNT`. With `order` missing, `order - 1` is `NaN`: the move is
committed with `to = NaN` and fails the guard `to >= 0` of `MOVE_ACCOUNT`. -/
def UPDATE_ACCOUNT (W : Wallet) (s : State) (_accountData : UpdateRequest) : Outcome :=
  match getAccountAndIndexByAddress W s _accountData.address with
  | .error _ => .thrown s
  | .ok r =>
    match r.account with
    | none => .done s
    | some account =>
      let name := if _accountData.name ≠ some account.address then _accountData.name else some ""
      let s1 := SET_ACCOUNT s { index := some r.index, account := { account with name := name } }
      match _accountData.order with
      | none => .done s1
      | some order =>
        if order - 1 ≠ r.index then .done (MOVE_ACCOUNT s1 r.index (order - 1)) else .done s1

/-! ## Sequences of operations -/

/-- A committed mutation with its payload. -/
inductive Mutation where
  | setBreakpoint (_breakpoint : Breakpoint)
  | setTokenPrice (_tokenPrice : Int)
  | setCurrency (_currency : String)
  | setFractionDigits (_fractionDigits : Int)
  | setActiveAccountByAddress (_address : String)
  | setActiveAccountAddress (_address : String)
  | deactivateActiveAccount
  | appendAccount (_account : Account)
  | removeActiveAccount
  | setAccount (_accountData : AccountData)
  | moveAccount (from_ to_ : Int)
deriving DecidableEq, Repr

/-- The call `commit(type, payload)`. -/
def commit (W : Wallet) (s : State) : Mutation → Outcome
  | .setBreakpoint b => .done (SET_BREAKPOINT s b)
  | .setTokenPrice p => .done (SET_TOKEN_PRICE s p)
  | .setCurrency c => .done (SET_CURRENCY s c)
  | .setFractionDigits d => .done (SET_FRACTION_DIGITS s d)
  | .setActiveAccountByAddress a => SET_ACTIVE_ACCOUNT_BY_ADDRESS W s a
  | .setActiveAccountAddress a => .done (SET_ACTIVE_ACCOUNT_ADDRESS W s a)
  | .deactivateActiveAccount => .done (DEACTIVATE_ACTIVE_ACCOUNT s)
  | .appendAccount a => APPEND_ACCOUNT s a
  | .removeActiveAccount => .done (REMOVE_ACTIVE_ACCOUNT s)
  | .setAccount d => .done (SET_ACCOUNT s d)
  | .moveAccount f t => .done (MOVE_ACCOUNT s f t)

/-- The state after a sequence of commits, each started in the state the previous
one left behind (also when that one raised). -/
def commitAll (W : Wallet) (s : State) (ms : List Mutation) : State :=
  ms.foldl (fun st m => (commit W st m).state) s

/-- An add operation with its argument and the answer `getBalance` gives during it. -/
inductive AddOp where
  | imported (_keystore : Keystore) (balance : Balance)
  | hardware (_account : Account) (balance : Balance)
deriving DecidableEq, Repr

/-- One add operation, dispatched on a state. -/
def dispatchAdd (toChecksumAddress : String → String) (s : State) : AddOp → Outcome
  | .imported k b =>
    ADD_ACCOUNT { toChecksumAddress := toChecksumAddress, getBalance := fun _ => b } s k
  | .hardware a b =>
    ADD_LEDGER_ACCOUNT { toChecksumAddress := toChecksumAddress, getBalance := fun _ => b } s a

/-- The state after a sequence of add operations run one after the other. -/
def dispatchAdds (toChecksumAddress : String → String) (s : State) (ops : List AddOp) : State :=
  ops.foldl (fun st op => (dispatchAdd toChecksumAddress st op).state) s

/-! ## Sample data -/

/-- An account record holding only an address. -/
def accountAt (address : String) : Account :=
  { address := address, balance := none, totalBalance := none, keystore := none,
    isLedgerAccount := none, name := none, rest := [] }

/-- A state whose registry holds one bare account per address, in order. -/
def registryOf (addresses : List String) (activeAccountIndex : Int) : State :=
  { initialState with
    accounts := addresses.map (fun a => some (accountAt a)),
    activeAccountIndex := activeAccountIndex }

/-- The addresses stored in the array, in order (holes hold none). -/
def storedAddresses (xs : List Slot) : List String :=
  xs.filterMap (fun slot => slot.map (fun a => a.address))

/-- No two accounts of the registry share an address. -/
def AddressesDistinct (s : State) : Prop := (storedAddresses s.accounts).Nodup

instance (s : State) : Decidable (AddressesDistinct s) :=
  inferInstanceAs (Decidable (storedAddresses s.accounts).Nodup)

/-- A wallet whose checksum function only rewrites `0xabc` to `0xABC`
and whose balances are all zero. -/
def sampleWallet : Wallet :=
  { toChecksumAddress := fun a => if a = "0xabc" then "0xABC" else a,
    getBalance := fun _ => { balance := "0", totalValue := "0" } }

/-- The active index is `-1` or a position of the array. -/
def ActiveIndexValid (s : State) : Prop :=
  s.activeAccountIndex = -1 ∨
    (0 ≤ s.activeAccountIndex ∧ s.activeAccountIndex < (s.accounts.length : Int))

/-- The account `A(addr = 0x1, bal = 10)` of the rename scenario. -/
def scenarioAccount : Account := { accountAt "0x1" with balance := some "10" }

/-- The request `{address: 0x1, name: "Main", order: 1}` of the rename scenario. -/
def scenarioRequest : UpdateRequest := { address := "0x1", name := some "Main", order := some 1 }

/-- The record `{...account, balance: balance.balance, totalBalance: balance.totalValue}`
for the balance the wallet returns for the address of `account`. -/
def refreshed (W : Wallet) (account : Account) : Account :=
  { account with
    balance := some (W.getBalance account.address).balance,
    totalBalance := some (W.getBalance account.address).totalValue }

/-- The loop of `UPDATE_ACCOUNTS_BALANCES` together with the positions whose balance it
fetches, in the order in which it fetches them. -/
def updateAccountsBalancesVisits (W : Wallet) : Nat → Nat → State → Outcome × List Nat
  | 0, _, s => (.done s, [])
  | n + 1, i, s =>
    match elemAt s.accounts i with
    | none => (.thrown s, [])
    | some account =>
      let balance := W.getBalance account.address
      let next := updateAccountsBalancesVisits W n (i + 1)
        (SET_ACCOUNT s
          { index := some (i : Int),
            account := { account with
              balance := some balance.balance,
              totalBalance := some balance.totalValue } })
      (next.1, i :: next.2)

/-- The part of `ADD_LEDGER_ACCOUNT` before its `await`: the duplicate check
`!getters.getAccountByAddress(address)` on the state of that moment. -/
def ledgerCheck (W : Wallet) (s : State) (_account : Account) : Except JsError Bool :=
  let address := W.toChecksumAddress _account.address
  match getAccountByAddress W s address with
  | .error e => .error e
  | .ok found => .ok found.isNone

/-- The part of `ADD_LEDGER_ACCOUNT` after its `await`: the record built from the fetched
balance and committed with `APPEND_ACCOUNT` on the state of that moment. -/
def ledgerCommit (W : Wallet) (s : State) (_account : Account) : Outcome :=
  let address := W.toChecksumAddress _account.address
  let balance := W.getBalance address
  let account : Account :=
    { _account with
      address := address,
      balance := some balance.balance,
      totalBalance := some balance.totalValue,
      isLedgerAccount := some true }
  APPEND_ACCOUNT s account

/-- Two `ADD_LEDGER_ACCOUNT` calls interleaved at their `await`: both run their duplicate
check on the starting state, then the first commits, then the second. A call whose check
does not pass commits nothing. -/
def ledgerRace (W : Wallet) (s : State) (first second : Account) : State :=
  let firstPasses := ledgerCheck W s first
  let secondPasses := ledgerCheck W s second
  let s1 :=
    match firstPasses with
    | .ok true => (ledgerCommit W s first).state
    | _ => s
  match secondPasses with
  | .ok true => (ledgerCommit W s1 second).state
  | _ => s1

/-! ## Array primitives: lemmas -/

theorem splice_nat {α : Type} (xs : List α) (i : Nat) (d : Nat) (items : List α) :
    splice xs (i : Int) (d : Int) items =
      (xs.take (min i xs.length) ++ items ++ xs.drop (min i xs.length + min d (xs.length - min i xs.length)),
       (xs.drop (min i xs.length)).take (min d (xs.length - min i xs.length))) := by
  have h1 : ¬ ((i : Int) < 0) := by omega
  have h2 : (min (i : Int) (xs.length : Int)).toNat = min i xs.length := by omega
  have h3 : (min (max (d : Int) 0) ((xs.length : Int) - ((min i xs.length : Nat) : Int))).toNat
      = min d (xs.length - min i xs.length) := by omega
  simp only [splice, h1, if_false, h2, h3]

theorem insertIdx_eq_take_drop {α : Type} (v : α) :
    ∀ (xs : List α) (j : Nat), j ≤ xs.length → xs.insertIdx j v = xs.take j ++ v :: xs.drop j
  | _, 0, _ => by simp
  | [], j + 1, h => by simp at h
  | x :: xs, j + 1, h => by
    have := insertIdx_eq_take_drop v xs j (by simpa using h)
    simp [List.insertIdx_succ_cons, this]

theorem splice_delete_one {α : Type} (xs : List α) (i : Nat) (h : i < xs.length) :
    splice xs (i : Int) 1 [] = (xs.eraseIdx i, [xs[i]]) := by
  have := splice_nat xs i 1 []
  simp only [Nat.cast_one] at this
  rw [this]
  have h1 : min i xs.length = i := by omega
  have h2 : min 1 (xs.length - i) = 1 := by omega
  have h3 : List.take 1 (List.drop i xs) = [xs[i]] := by
    rw [List.drop_eq_getElem_cons h]
    rfl
  simp only [h1, h2, h3, List.append_nil, List.eraseIdx_eq_take_drop_succ]

theorem splice_delete_one_of_le {α : Type} (xs : List α) (i : Nat) (h : xs.length ≤ i) :
    splice xs (i : Int) 1 [] = (xs, []) := by
  have := splice_nat xs i 1 []
  simp only [Nat.cast_one] at this
  rw [this]
  have h1 : min i xs.length = xs.length := by omega
  simp [h1]

theorem splice_insert_one {α : Type} (xs : List α) (j : Nat) (h : j ≤ xs.length) (v : α) :
    (splice xs (j : Int) 0 [v]).1 = xs.insertIdx j v := by
  have := splice_nat xs j 0 [v]
  simp only [Nat.cast_zero] at this
  rw [this, insertIdx_eq_take_drop v xs j h]
  have h1 : min j xs.length = j := by omega
  simp [h1]

theorem vueSet_of_lt (xs : List Slot) (i : Nat) (h : i < xs.length) (v : Slot) :
    vueSet xs i v = xs.set i v := by
  unfold vueSet
  have h0 : i - xs.length = 0 := by omega
  have := splice_nat xs i 1 [v]
  simp only [Nat.cast_one] at this
  simp only [h0, List.replicate_zero, List.append_nil, this]
  have h1 : min i xs.length = i := by omega
  have h2 : min 1 (xs.length - i) = 1 := by omega
  simp only [h1, h2, List.set_eq_take_append_cons_drop, h, if_true]
  simp

theorem vueSet_of_ge (xs : List Slot) (i : Nat) (h : xs.length ≤ i) (v : Slot) :
    vueSet xs i v = xs ++ List.replicate (i - xs.length) none ++ [v] := by
  unfold vueSet
  have := splice_nat (xs ++ List.replicate (i - xs.length) none) i 1 [v]
  simp only [Nat.cast_one] at this
  rw [this]
  have hl : (xs ++ List.replicate (i - xs.length) none).length = i := by simp; omega
  simp only [hl, Nat.min_self, Nat.sub_self, Nat.min_zero, Nat.add_zero, Nat.zero_min]
  rw [List.take_of_length_le (by rw [hl]), List.drop_of_length_le (by rw [hl])]
  simp

/-! ## Mutations on valid and invalid positions -/

theorem MOVE_ACCOUNT_valid (s : State) (f t : Nat) (hft : f ≠ t) (hf : f < s.accounts.length)
    (ht : t < s.accounts.length) :
    MOVE_ACCOUNT s (f : Int) (t : Int) =
      { s with accounts := (s.accounts.eraseIdx f).insertIdx t (s.accounts[f]) } := by
  have hg : ((f : Int) ≠ (t : Int) ∧ (f : Int) ≥ 0 ∧ (t : Int) ≥ 0 ∧
      (f : Int) < (s.accounts.length : Int) ∧ (t : Int) < (s.accounts.length : Int)) := by
    refine ⟨?_, ?_, ?_, ?_, ?_⟩ <;> omega
  have hlen : t ≤ (s.accounts.eraseIdx f).length := by
    rw [List.length_eraseIdx]
    simp only [hf, if_true]
    omega
  unfold MOVE_ACCOUNT
  rw [if_pos hg]
  simp only [splice_delete_one s.accounts f hf, List.get?_cons_zero, Option.join,
    Option.some_bind, id, splice_insert_one _ t hlen]

theorem MOVE_ACCOUNT_invalid (s : State) (from_ to_ : Int)
    (h : from_ = to_ ∨ from_ < 0 ∨ to_ < 0 ∨ (s.accounts.length : Int) ≤ from_ ∨
      (s.accounts.length : Int) ≤ to_) :
    MOVE_ACCOUNT s from_ to_ = s := by
  have hg : ¬ (from_ ≠ to_ ∧ from_ ≥ 0 ∧ to_ ≥ 0 ∧
      from_ < (s.accounts.length : Int) ∧ to_ < (s.accounts.length : Int)) := by
    rintro ⟨h1, h2, h3, h4, h5⟩
    rcases h with h | h | h | h | h <;> omega
  simp only [MOVE_ACCOUNT, hg, if_false]

theorem REMOVE_ACTIVE_ACCOUNT_valid (s : State) (i : Nat) (hi : s.activeAccountIndex = (i : Int))
    (h : i < s.accounts.length) :
    REMOVE_ACTIVE_ACCOUNT s = { s with accounts := s.accounts.eraseIdx i, activeAccountIndex := -1 } := by
  have hg : s.activeAccountIndex > -1 := by omega
  simp only [REMOVE_ACTIVE_ACCOUNT, hg, if_true]
  rw [hi, splice_delete_one s.accounts i h]

/-! ## Properties of the registry -/

/-- C1: `MOVE_ACCOUNT` with distinct indices inside the array keeps the length, puts the
element of position `from` at position `to`, and leaves the other elements in their
order: erasing position `to` afterwards gives what erasing `from` gave before. -/
theorem moveAccount_valid (s : State) (from_ to_ : Int) (hne : from_ ≠ to_)
    (hf0 : 0 ≤ from_) (hf1 : from_ < s.accounts.length)
    (ht0 : 0 ≤ to_) (ht1 : to_ < s.accounts.length) :
    (MOVE_ACCOUNT s from_ to_).accounts.length = s.accounts.length ∧
    (MOVE_ACCOUNT s from_ to_).accounts.get? to_.toNat = s.accounts.get? from_.toNat ∧
    (MOVE_ACCOUNT s from_ to_).accounts.eraseIdx to_.toNat = s.accounts.eraseIdx from_.toNat := by
  lift from_ to Nat using hf0 with f
  lift to_ to Nat using ht0 with t
  have hf : f < s.accounts.length := by omega
  have ht : t < s.accounts.length := by omega
  have hft : f ≠ t := by omega
  have hlen : t ≤ (s.accounts.eraseIdx f).length := by
    rw [List.length_eraseIdx]
    simp only [hf, if_true]
    omega
  rw [MOVE_ACCOUNT_valid s f t hft hf ht]
  simp only [Int.toNat_ofNat]
  refine ⟨?_, ?_, ?_⟩
  · rw [List.length_insertIdx _ _ hlen, List.length_eraseIdx]
    simp only [hf, if_true]
    omega
  · have hlt : t < (List.insertIdx t s.accounts[f] (s.accounts.eraseIdx f)).length := by
      rw [List.length_insertIdx _ _ hlen]
      omega
    rw [List.get?_eq_getElem?, List.get?_eq_getElem?, List.getElem?_eq_getElem hlt,
      List.getElem?_eq_getElem hf, List.getElem_insertIdx_self _ _ _ hlen]
  · exact List.eraseIdx_insertIdx t _

/-- The scenario of C1: `[A, B, C]` with `moveAccount(0, 2)` gives `[B, C, A]`. -/
theorem moveAccount_valid_witness :
    (MOVE_ACCOUNT (registryOf ["A", "B", "C"] (-1)) 0 2).accounts =
      [some (accountAt "B"), some (accountAt "C"), some (accountAt "A")] ∧
    ((MOVE_ACCOUNT (registryOf ["A", "B", "C"] (-1)) 0 2).accounts.length = 3 ∧
     (MOVE_ACCOUNT (registryOf ["A", "B", "C"] (-1)) 0 2).accounts.get? 2 = some (some (accountAt "A")) ∧
     (MOVE_ACCOUNT (registryOf ["A", "B", "C"] (-1)) 0 2).accounts.eraseIdx 2 =
       [some (accountAt "B"), some (accountAt "C")]) :=
  ⟨by decide,
   moveAccount_valid (registryOf ["A", "B", "C"] (-1)) 0 2 (by decide) (by decide) (by decide)
     (by decide) (by decide)⟩

theorem scanByAddress_dense_none (address : String) :
    ∀ (accs : List Account) (i : Nat), (∀ a ∈ accs, a.address ≠ address) →
      scanByAddress (accs.map some) address i = .ok none
  | [], _, _ => rfl
  | a :: accs, i, h => by
    have ha : a.address ≠ address := h a (List.mem_cons_self _ _)
    have ih := scanByAddress_dense_none address accs (i + 1)
      (fun b hb => h b (List.mem_cons_of_mem _ hb))
    simp only [List.map_cons, scanByAddress, ha, if_false, ih]

theorem scanByAddress_dense_first (address : String) :
    ∀ (accs : List Account) (i k : Nat) (hk : k < accs.length),
      accs[k].address = address → (∀ j (hj : j < k), accs[j].address ≠ address) →
      scanByAddress (accs.map some) address i = .ok (some (i + k))
  | [], _, k, hk, _, _ => by simp at hk
  | a :: accs, i, 0, _, h0, _ => by
    have ha : a.address = address := by simpa using h0
    simp only [List.map_cons, scanByAddress, ha, if_true, Nat.add_zero]
  | a :: accs, i, k + 1, hk, hkk, hfirst => by
    have ha : a.address ≠ address := by simpa using hfirst 0 (Nat.succ_pos k)
    have hk2 : k < accs.length := by simpa using hk
    have ih := scanByAddress_dense_first address accs (i + 1) k hk2 (by simpa using hkk)
      (fun j hj => by simpa using hfirst (j + 1) (Nat.succ_lt_succ hj))
    simp only [List.map_cons, scanByAddress, ha, if_false, ih]
    congr 2
    omega

/-- A dense array has a first position holding the address, or none holds it. -/
theorem first_or_absent (address : String) :
    ∀ (accs : List Account), (∀ a ∈ accs, a.address ≠ address) ∨
      ∃ (k : Nat) (hk : k < accs.length), accs[k].address = address ∧
        ∀ j (hj : j < k), accs[j].address ≠ address
  | [] => Or.inl (by simp)
  | a :: accs => by
    by_cases ha : a.address = address
    · exact Or.inr ⟨0, by simp, by simpa using ha, fun j hj => absurd hj (Nat.not_lt_zero j)⟩
    · rcases first_or_absent address accs with h | ⟨k, hk, hkk, hfirst⟩
      · left
        intro b hb
        rcases List.mem_cons.mp hb with rfl | hb
        · exact ha
        · exact h b hb
      · right
        refine ⟨k + 1, by simpa using hk, by simpa using hkk, ?_⟩
        intro j hj
        cases j with
        | zero => simpa using ha
        | succ j => simpa using hfirst j (by omega)

theorem scanByAddress_ok_some (address : String) :
    ∀ (xs : List Slot) (i k : Nat), scanByAddress xs address i = .ok (some k) →
      ∃ (j : Nat) (acc : Account), k = i + j ∧ j < xs.length ∧ xs.get? j = some (some acc) ∧
        acc.address = address ∧
        ∀ m, m < j → ∃ b : Account, xs.get? m = some (some b) ∧ b.address ≠ address
  | [], _, _, h => by simp [scanByAddress] at h
  | none :: _, _, _, h => by simp [scanByAddress] at h
  | some a :: xs, i, k, h => by
    by_cases ha : a.address = address
    · simp only [scanByAddress, ha, if_true, Except.ok.injEq, Option.some.injEq] at h
      exact ⟨0, a, by omega, by simp, by simp, ha, fun m hm => absurd hm (Nat.not_lt_zero m)⟩
    · simp only [scanByAddress, ha, if_false] at h
      obtain ⟨j, acc, hk, hj, hget, hacc, hfirst⟩ := scanByAddress_ok_some address xs (i + 1) k h
      refine ⟨j + 1, acc, by omega, by simpa using hj, by simpa using hget, hacc, ?_⟩
      intro m hm
      cases m with
      | zero => exact ⟨a, by simp, ha⟩
      | succ m => simpa using hfirst m (by omega)

theorem scanByAddress_ok_none (address : String) :
    ∀ (xs : List Slot) (i : Nat), scanByAddress xs address i = .ok none →
      ∀ x ∈ xs, ∃ b : Account, x = some b ∧ b.address ≠ address
  | [], _, _ => by simp
  | none :: _, _, h => by simp [scanByAddress] at h
  | some a :: xs, i, h => by
    by_cases ha : a.address = address
    · simp [scanByAddress, ha] at h
    · simp only [scanByAddress, ha, if_false] at h
      intro x hx
      rcases List.mem_cons.mp hx with rfl | hx
      · exact ⟨a, rfl, ha⟩
      · exact scanByAddress_ok_none address xs (i + 1) h x hx

theorem findByAddress_ok_none (address : String) :
    ∀ (xs : List Slot), findByAddress xs address = .ok none →
      ∀ x ∈ xs, ∃ b : Account, x = some b ∧ b.address ≠ address
  | [], _ => by simp
  | none :: _, h => by simp [findByAddress] at h
  | some a :: xs, h => by
    by_cases ha : a.address = address
    · simp [findByAddress, ha] at h
    · simp only [findByAddress, ha, if_false] at h
      intro x hx
      rcases List.mem_cons.mp hx with rfl | hx
      · exact ⟨a, rfl, ha⟩
      · exact findByAddress_ok_none address xs h x hx

/-- C6: `REMOVE_ACTIVE_ACCOUNT` with an active account (`0 <= activeAccountIndex < length`)
deletes exactly the element at that position, so the array is one shorter and the other
elements keep their order, and sets `activeAccountIndex` to `-1`. -/
theorem removeActive_deletes_active (s : State) (h0 : 0 ≤ s.activeAccountIndex)
    (h1 : s.activeAccountIndex < s.accounts.length) :
    (REMOVE_ACTIVE_ACCOUNT s).accounts = s.accounts.eraseIdx s.activeAccountIndex.toNat ∧
    (REMOVE_ACTIVE_ACCOUNT s).accounts.length + 1 = s.accounts.length ∧
    (REMOVE_ACTIVE_ACCOUNT s).activeAccountIndex = -1 := by
  have hi : s.activeAccountIndex = (s.activeAccountIndex.toNat : Int) := by omega
  have hlt : s.activeAccountIndex.toNat < s.accounts.length := by omega
  rw [REMOVE_ACTIVE_ACCOUNT_valid s _ hi hlt]
  refine ⟨rfl, ?_, rfl⟩
  simp only [List.length_eraseIdx, hlt, if_true]
  omega

/-- An instance of C6: removing the active second account of `[A, B, C]`. -/
theorem removeActive_deletes_active_witness :
    (REMOVE_ACTIVE_ACCOUNT (registryOf ["A", "B", "C"] 1)).accounts =
      [some (accountAt "A"), some (accountAt "C")] ∧
    (REMOVE_ACTIVE_ACCOUNT (registryOf ["A", "B", "C"] 1)).accounts.length + 1 = 3 ∧
    (REMOVE_ACTIVE_ACCOUNT (registryOf ["A", "B", "C"] 1)).activeAccountIndex = -1 :=
  removeActive_deletes_active (registryOf ["A", "B", "C"] 1) (by decide) (by decide)

/-- C7: on an array of accounts, `SET_ACTIVE_ACCOUNT_BY_ADDRESS` completes, leaves the
array (and everything but the index) as it was, and sets `activeAccountIndex` to `-1`
when no stored address equals `toChecksumAddress(address)`, and otherwise to the first
position whose stored address equals it, whatever the index was before. -/
theorem setActiveByAddress_spec (W : Wallet) (base : State) (accs : List Account)
    (_address : String) :
    ∃ s1 : State,
      SET_ACTIVE_ACCOUNT_BY_ADDRESS W { base with accounts := accs.map some } _address = .done s1 ∧
      s1 = { base with accounts := accs.map some, activeAccountIndex := s1.activeAccountIndex } ∧
      ((∀ a ∈ accs, a.address ≠ W.toChecksumAddress _address) → s1.activeAccountIndex = -1) ∧
      (∀ (i : Nat) (hi : i < accs.length), accs[i].address = W.toChecksumAddress _address →
        (∀ (j : Nat) (hj : j < i), accs[j].address ≠ W.toChecksumAddress _address) →
        s1.activeAccountIndex = (i : Int)) := by
  rcases first_or_absent (W.toChecksumAddress _address) accs with h | ⟨k, hk, hkk, hfirst⟩
  · refine ⟨{ base with accounts := accs.map some, activeAccountIndex := -1 }, ?_, rfl,
      fun _ => rfl, ?_⟩
    · simp only [SET_ACTIVE_ACCOUNT_BY_ADDRESS, scanByAddress_dense_none _ accs 0 h]
    · intro i hi hii _
      exact absurd hii (h _ (List.getElem_mem _))
  · refine ⟨{ base with accounts := accs.map some, activeAccountIndex := (k : Int) }, ?_, rfl,
      ?_, ?_⟩
    · simp only [SET_ACTIVE_ACCOUNT_BY_ADDRESS,
        scanByAddress_dense_first _ accs 0 k hk hkk hfirst, Nat.zero_add]
    · intro h
      exact absurd hkk (h _ (List.getElem_mem _))
    · intro i hi hii hifirst
      have h1 : ¬ i < k := fun hlt => hfirst i hlt hii
      have h2 : ¬ k < i := fun hlt => hifirst k hlt hkk
      have : i = k := by omega
      simp only [this]

/-- C8: `MOVE_ACCOUNT` with `from == to`, or with `from` or `to` outside `[0, length)`,
returns the state it was given. -/
theorem moveAccount_invalid_noop (s : State) (from_ to_ : Int)
    (h : from_ = to_ ∨ (from_ < 0 ∨ (s.accounts.length : Int) ≤ from_) ∨
      (to_ < 0 ∨ (s.accounts.length : Int) ≤ to_)) :
    MOVE_ACCOUNT s from_ to_ = s := by
  apply MOVE_ACCOUNT_invalid
  rcases h with h | (h | h) | (h | h)
  · exact Or.inl h
  · exact Or.inr (Or.inl h)
  · exact Or.inr (Or.inr (Or.inr (Or.inl h)))
  · exact Or.inr (Or.inr (Or.inl h))
  · exact Or.inr (Or.inr (Or.inr (Or.inr h)))

/-- An instance of C8: a target position past the end of `[A, B]`. -/
theorem moveAccount_invalid_noop_witness :
    MOVE_ACCOUNT (registryOf ["A", "B"] 0) 0 2 = registryOf ["A", "B"] 0 :=
  moveAccount_invalid_noop (registryOf ["A", "B"] 0) 0 2 (by decide)

/-- C9: `REMOVE_ACTIVE_ACCOUNT` with `activeAccountIndex = -1` returns the state it was
given: the array and the index are as before. -/
theorem removeActive_inactive_noop (s : State) (h : s.activeAccountIndex = -1) :
    REMOVE_ACTIVE_ACCOUNT s = s := by
  have hg : ¬ s.activeAccountIndex > -1 := by omega
  simp only [REMOVE_ACTIVE_ACCOUNT, hg, if_false]

/-- An instance of C9: `[A, B]` with no active account. -/
theorem removeActive_inactive_noop_witness :
    REMOVE_ACTIVE_ACCOUNT (registryOf ["A", "B"] (-1)) = registryOf ["A", "B"] (-1) :=
  removeActive_inactive_noop (registryOf ["A", "B"] (-1)) rfl

/-- What an append can do: nothing, or push a record whose address no slot holds. -/
theorem APPEND_ACCOUNT_cases (s : State) (acc : Account) :
    (APPEND_ACCOUNT s acc).state = s ∨
    ((∀ x ∈ s.accounts, ∃ b : Account, x = some b ∧ b.address ≠ acc.address) ∧
      APPEND_ACCOUNT s acc = .done { s with accounts := s.accounts ++ [some acc] }) := by
  unfold APPEND_ACCOUNT
  cases h : findByAddress s.accounts acc.address with
  | error e => exact Or.inl rfl
  | ok r =>
    cases r with
    | some a => exact Or.inl rfl
    | none => exact Or.inr ⟨findByAddress_ok_none _ _ h, rfl⟩

theorem ADD_ACCOUNT_cases (W : Wallet) (s : State) (k : Keystore) :
    (ADD_ACCOUNT W s k).state = s ∨
    ∃ acc : Account, acc.address = W.toChecksumAddress k.address ∧
      (∀ x ∈ s.accounts, ∃ b : Account, x = some b ∧ b.address ≠ acc.address) ∧
      ADD_ACCOUNT W s k = .done { s with accounts := s.accounts ++ [some acc] } := by
  unfold ADD_ACCOUNT
  rcases APPEND_ACCOUNT_cases s
    { address := W.toChecksumAddress k.address,
      balance := some (W.getBalance (W.toChecksumAddress k.address)).balance,
      totalBalance := some (W.getBalance (W.toChecksumAddress k.address)).totalValue,
      keystore := some k, isLedgerAccount := none, name := none, rest := [] } with h | ⟨h1, h2⟩
  · exact Or.inl h
  · exact Or.inr ⟨_, rfl, h1, h2⟩

theorem ADD_LEDGER_ACCOUNT_cases (W : Wallet) (s : State) (a : Account) :
    (ADD_LEDGER_ACCOUNT W s a).state = s ∨
    ∃ acc : Account, acc.address = W.toChecksumAddress a.address ∧
      (∀ x ∈ s.accounts, ∃ b : Account, x = some b ∧ b.address ≠ acc.address) ∧
      ADD_LEDGER_ACCOUNT W s a = .done { s with accounts := s.accounts ++ [some acc] } := by
  simp only [ADD_LEDGER_ACCOUNT]
  cases h : getAccountByAddress W s (W.toChecksumAddress a.address) with
  | error e => exact Or.inl rfl
  | ok r =>
    cases r with
    | some b => exact Or.inl rfl
    | none =>
      rcases APPEND_ACCOUNT_cases s
        { a with
          address := W.toChecksumAddress a.address,
          balance := some (W.getBalance (W.toChecksumAddress a.address)).balance,
          totalBalance := some (W.getBalance (W.toChecksumAddress a.address)).totalValue,
          isLedgerAccount := some true } with h | ⟨h1, h2⟩
      · exact Or.inl h
      · exact Or.inr ⟨_, rfl, h1, h2⟩

theorem storedAddresses_append_one (xs : List Slot) (acc : Account) :
    storedAddresses (xs ++ [some acc]) = storedAddresses xs ++ [acc.address] := by
  simp [storedAddresses]

theorem mem_storedAddresses {xs : List Slot} {address : String} :
    address ∈ storedAddresses xs ↔ ∃ b : Account, some b ∈ xs ∧ b.address = address := by
  simp only [storedAddresses, List.mem_filterMap, Option.map_eq_some']
  constructor
  · rintro ⟨x, hx, b, rfl, hb⟩
    exact ⟨b, hx, hb⟩
  · rintro ⟨b, hb, rfl⟩
    exact ⟨some b, hb, b, rfl, rfl⟩

/-- Pushing a record whose address no slot holds keeps the addresses distinct. -/
theorem nodup_push (xs : List Slot) (acc : Account)
    (habs : ∀ x ∈ xs, ∃ b : Account, x = some b ∧ b.address ≠ acc.address)
    (h : (storedAddresses xs).Nodup) : (storedAddresses (xs ++ [some acc])).Nodup := by
  rw [storedAddresses_append_one]
  refine List.Nodup.append h (List.nodup_singleton _) ?_
  intro address h1 h2
  rw [List.mem_singleton] at h2
  subst h2
  obtain ⟨b, hb, hbb⟩ := mem_storedAddresses.mp h1
  obtain ⟨c, hc, hcc⟩ := habs _ hb
  cases hc
  exact hcc hbb

theorem storedAddresses_dense (accs : List Account) :
    storedAddresses (accs.map some) = accs.map (fun a => a.address) := by
  induction accs with
  | nil => rfl
  | cons a accs ih =>
    simp only [storedAddresses, List.map_cons, List.filterMap_cons, Option.map_some'] at ih ⊢
    rw [ih]

/-- One add operation keeps the registry an array of accounts with distinct addresses. -/
theorem dispatchAdd_distinct (cs : String → String) (s : State) (op : AddOp)
    (accs : List Account) (hs : s.accounts = accs.map some)
    (hn : (accs.map (fun a => a.address)).Nodup) :
    ∃ accs1 : List Account, (dispatchAdd cs s op).state.accounts = accs1.map some ∧
      (accs1.map (fun a => a.address)).Nodup := by
  have key : (dispatchAdd cs s op).state = s ∨
      ∃ acc : Account,
        (∀ x ∈ s.accounts, ∃ b : Account, x = some b ∧ b.address ≠ acc.address) ∧
        dispatchAdd cs s op = .done { s with accounts := s.accounts ++ [some acc] } := by
    cases op with
    | imported k b =>
      rcases ADD_ACCOUNT_cases { toChecksumAddress := cs, getBalance := fun _ => b } s k with
        h | ⟨acc, _, h1, h2⟩
      · exact Or.inl h
      · exact Or.inr ⟨acc, h1, h2⟩
    | hardware a b =>
      rcases ADD_LEDGER_ACCOUNT_cases { toChecksumAddress := cs, getBalance := fun _ => b } s a with
        h | ⟨acc, _, h1, h2⟩
      · exact Or.inl h
      · exact Or.inr ⟨acc, h1, h2⟩
  rcases key with h | ⟨acc, habs, h⟩
  · exact ⟨accs, by rw [h, hs], hn⟩
  · refine ⟨accs ++ [acc], ?_, ?_⟩
    · rw [h]
      simp only [Outcome.state, hs, List.map_append, List.map_cons, List.map_nil]
    · have h1 : (storedAddresses s.accounts).Nodup := by
        rw [hs, storedAddresses_dense]
        exact hn
      have h2 := nodup_push s.accounts acc habs h1
      rw [hs, ← List.map_singleton, ← List.map_append, storedAddresses_dense] at h2
      exact h2

theorem dispatchAdds_distinct (cs : String → String) :
    ∀ (ops : List AddOp) (s : State) (accs : List Account), s.accounts = accs.map some →
      (accs.map (fun a => a.address)).Nodup →
      ∃ accs1 : List Account, (dispatchAdds cs s ops).accounts = accs1.map some ∧
        (accs1.map (fun a => a.address)).Nodup
  | [], s, accs, hs, hn => ⟨accs, hs, hn⟩
  | op :: ops, s, accs, hs, hn => by
    obtain ⟨accs1, h1, h2⟩ := dispatchAdd_distinct cs s op accs hs hn
    exact dispatchAdds_distinct cs ops (dispatchAdd cs s op).state accs1 h1 h2

/-- C2: starting from the empty registry, after any finite sequence of add operations
(`ADD_ACCOUNT` or `ADD_LEDGER_ACCOUNT`, with any arguments, any checksum function and
any balances) the registry is an array of accounts no two of which have the same
address. -/
theorem adds_never_duplicate (cs : String → String) (ops : List AddOp) :
    ∃ accs : List Account, (dispatchAdds cs initialState ops).accounts = accs.map some ∧
      (accs.map (fun a => a.address)).Nodup :=
  dispatchAdds_distinct cs ops initialState [] rfl List.nodup_nil

/-- C3: when the checksummed address of the argument is the address of an account
already in the array, `ADD_ACCOUNT` and `ADD_LEDGER_ACCOUNT` leave the state, and so the
array and its length, as they were. -/
theorem add_duplicate_noop (W : Wallet) (s : State) (_keystore : Keystore) (_account : Account)
    (hk : ∃ a : Account, some a ∈ s.accounts ∧
      a.address = W.toChecksumAddress _keystore.address)
    (ha : ∃ a : Account, some a ∈ s.accounts ∧
      a.address = W.toChecksumAddress _account.address) :
    (ADD_ACCOUNT W s _keystore).state = s ∧ (ADD_LEDGER_ACCOUNT W s _account).state = s := by
  constructor
  · rcases ADD_ACCOUNT_cases W s _keystore with h | ⟨acc, hacc, habs, _⟩
    · exact h
    · obtain ⟨a, hmem, haddr⟩ := hk
      obtain ⟨b, hb, hne⟩ := habs _ hmem
      cases hb
      exact absurd (haddr.trans hacc.symm) hne
  · rcases ADD_LEDGER_ACCOUNT_cases W s _account with h | ⟨acc, hacc, habs, _⟩
    · exact h
    · obtain ⟨a, hmem, haddr⟩ := ha
      obtain ⟨b, hb, hne⟩ := habs _ hmem
      cases hb
      exact absurd (haddr.trans hacc.symm) hne

/-- The scenario of C3: address `0xabc` while `0xABC = toChecksumAddress(0xabc)` is stored. -/
theorem add_duplicate_noop_witness :
    (ADD_ACCOUNT sampleWallet (registryOf ["0xABC"] (-1))
        { address := "0xabc", body := "" }).state = registryOf ["0xABC"] (-1) ∧
    (ADD_LEDGER_ACCOUNT sampleWallet (registryOf ["0xABC"] (-1)) (accountAt "0xabc")).state =
      registryOf ["0xABC"] (-1) :=
  add_duplicate_noop sampleWallet (registryOf ["0xABC"] (-1)) { address := "0xabc", body := "" }
    (accountAt "0xabc") ⟨accountAt "0xABC", by decide, by decide⟩
    ⟨accountAt "0xABC", by decide, by decide⟩

theorem vueSet_length_ge (xs : List Slot) (i : Nat) (v : Slot) :
    xs.length ≤ (vueSet xs i v).length := by
  rcases Nat.lt_or_ge i xs.length with h | h
  · rw [vueSet_of_lt xs i h, List.length_set]
  · rw [vueSet_of_ge xs i h]
    simp only [List.length_append]
    omega

theorem MOVE_ACCOUNT_length (s : State) (from_ to_ : Int) :
    (MOVE_ACCOUNT s from_ to_).accounts.length = s.accounts.length := by
  by_cases hg : from_ ≠ to_ ∧ from_ ≥ 0 ∧ to_ ≥ 0 ∧
      from_ < (s.accounts.length : Int) ∧ to_ < (s.accounts.length : Int)
  · obtain ⟨h1, h2, h3, h4, h5⟩ := hg
    lift from_ to Nat using h2 with f
    lift to_ to Nat using h3 with t
    have hf : f < s.accounts.length := by omega
    have ht : t < s.accounts.length := by omega
    rw [MOVE_ACCOUNT_valid s f t (by omega) hf ht]
    have hlen : t ≤ (s.accounts.eraseIdx f).length := by
      rw [List.length_eraseIdx]
      simp only [hf, if_true]
      omega
    simp only [List.length_insertIdx _ _ hlen, List.length_eraseIdx, hf, if_true]
    omega
  · simp only [MOVE_ACCOUNT, hg, if_false]

theorem MOVE_ACCOUNT_activeAccountIndex (s : State) (from_ to_ : Int) :
    (MOVE_ACCOUNT s from_ to_).activeAccountIndex = s.activeAccountIndex := by
  unfold MOVE_ACCOUNT
  simp only []
  split <;> rfl

theorem SET_ACCOUNT_activeAccountIndex (s : State) (d : AccountData) :
    (SET_ACCOUNT s d).activeAccountIndex = s.activeAccountIndex := by
  unfold SET_ACCOUNT
  split
  · rfl
  · split <;> rfl

theorem SET_ACCOUNT_length_ge (s : State) (d : AccountData) :
    s.accounts.length ≤ (SET_ACCOUNT s d).accounts.length := by
  unfold SET_ACCOUNT
  split
  · exact Nat.le_refl _
  · split
    · exact vueSet_length_ge _ _ _
    · exact Nat.le_refl _

/-- Every mutation keeps the active index `-1` or inside the array. -/
theorem commit_ActiveIndexValid (W : Wallet) (s : State) (m : Mutation)
    (h : ActiveIndexValid s) : ActiveIndexValid (commit W s m).state := by
  cases m with
  | setBreakpoint b => exact h
  | setTokenPrice p => exact h
  | setCurrency c => exact h
  | setFractionDigits d => exact h
  | setActiveAccountAddress a => exact h
  | deactivateActiveAccount => exact Or.inl rfl
  | setActiveAccountByAddress a =>
    simp only [commit, SET_ACTIVE_ACCOUNT_BY_ADDRESS]
    cases hscan : scanByAddress s.accounts (W.toChecksumAddress a) 0 with
    | error e => exact Or.inl rfl
    | ok r =>
      cases r with
      | none => exact Or.inl rfl
      | some k =>
        obtain ⟨j, acc, hk, hj, _⟩ := scanByAddress_ok_some _ _ _ _ hscan
        right
        simp only [Outcome.state]
        omega
  | appendAccount a =>
    simp only [commit]
    rcases APPEND_ACCOUNT_cases s a with h1 | ⟨_, h1⟩
    · rw [h1]
      exact h
    · rw [h1]
      rcases h with h | h
      · exact Or.inl h
      · right
        simp only [Outcome.state, List.length_append, List.length_singleton]
        omega
  | removeActiveAccount =>
    simp only [commit, Outcome.state, REMOVE_ACTIVE_ACCOUNT]
    split
    · exact Or.inl rfl
    · exact h
  | setAccount d =>
    simp only [commit, Outcome.state]
    have h1 := SET_ACCOUNT_activeAccountIndex s d
    have h2 := SET_ACCOUNT_length_ge s d
    unfold ActiveIndexValid at h ⊢
    omega
  | moveAccount f t =>
    simp only [commit, Outcome.state]
    have h1 := MOVE_ACCOUNT_activeAccountIndex s f t
    have h2 := MOVE_ACCOUNT_length s f t
    unfold ActiveIndexValid at h ⊢
    omega

theorem commitAll_ActiveIndexValid (W : Wallet) :
    ∀ (ms : List Mutation) (s : State), ActiveIndexValid s → ActiveIndexValid (commitAll W s ms)
  | [], _, h => h
  | m :: ms, s, h =>
    commitAll_ActiveIndexValid W ms (commit W s m).state (commit_ActiveIndexValid W s m h)

/-- C4: in every state reached from the initial state by a finite sequence of mutations
with arbitrary payloads, `activeAccountIndex` is `-1` or satisfies
`0 <= activeAccountIndex < accounts.length`. -/
theorem activeIndex_valid_reachable (W : Wallet) (ms : List Mutation) :
    (commitAll W initialState ms).activeAccountIndex = -1 ∨
    (0 ≤ (commitAll W initialState ms).activeAccountIndex ∧
      (commitAll W initialState ms).activeAccountIndex <
        ((commitAll W initialState ms).accounts.length : Int)) :=
  commitAll_ActiveIndexValid W ms initialState (Or.inl rfl)

theorem splice_delete_one_sublist {α : Type} (xs : List α) (i : Nat) :
    (splice xs (i : Int) 1 []).1.Sublist xs := by
  rcases Nat.lt_or_ge i xs.length with h | h
  · rw [splice_delete_one xs i h]
    exact List.eraseIdx_sublist xs i
  · have e := congrArg Prod.fst (splice_delete_one_of_le xs i h)
    exact e ▸ List.Sublist.refl xs

theorem perm_insertIdx_eraseIdx {α : Type} (xs : List α) (f t : Nat) (hf : f < xs.length)
    (ht : t ≤ (xs.eraseIdx f).length) :
    List.Perm ((xs.eraseIdx f).insertIdx t xs[f]) xs := by
  have h1 : List.Perm ((xs.eraseIdx f).insertIdx t xs[f]) (xs[f] :: xs.eraseIdx f) :=
    List.perm_insertIdx _ _ ht
  have h2 : List.Perm (xs[f] :: xs.eraseIdx f) xs := by
    rw [List.eraseIdx_eq_take_drop_succ]
    have h3 : xs = List.take f xs ++ xs[f] :: List.drop (f + 1) xs := by
      rw [← List.drop_eq_getElem_cons hf, List.take_append_drop]
    conv_rhs => rw [h3]
    exact List.perm_middle.symm
  exact h1.trans h2

theorem MOVE_ACCOUNT_perm (s : State) (from_ to_ : Int) :
    List.Perm (MOVE_ACCOUNT s from_ to_).accounts s.accounts := by
  by_cases hg : from_ ≠ to_ ∧ from_ ≥ 0 ∧ to_ ≥ 0 ∧
      from_ < (s.accounts.length : Int) ∧ to_ < (s.accounts.length : Int)
  · obtain ⟨h1, h2, h3, h4, h5⟩ := hg
    lift from_ to Nat using h2 with f
    lift to_ to Nat using h3 with t
    have hf : f < s.accounts.length := by omega
    have ht : t < s.accounts.length := by omega
    rw [MOVE_ACCOUNT_valid s f t (by omega) hf ht]
    have hlen : t ≤ (s.accounts.eraseIdx f).length := by
      rw [List.length_eraseIdx]
      simp only [hf, if_true]
      omega
    exact perm_insertIdx_eraseIdx s.accounts f t hf hlen
  · simp only [MOVE_ACCOUNT, hg, if_false]
    exact List.Perm.refl _

theorem storedAddresses_set_same (b : Account) :
    ∀ (xs : List Slot) (i : Nat) (a : Account), xs.get? i = some (some a) →
      a.address = b.address → storedAddresses (xs.set i (some b)) = storedAddresses xs
  | [], _, _, h, _ => by simp at h
  | x :: xs, 0, a, h, hab => by
    have hx : x = some a := by simpa using h
    subst hx
    simp [storedAddresses, hab]
  | x :: xs, i + 1, a, h, hab => by
    have ih := storedAddresses_set_same b xs i a (by simpa using h) hab
    cases x with
    | none =>
      simpa [storedAddresses] using ih
    | some c =>
      simp only [storedAddresses, List.set_cons_succ, List.filterMap_cons, Option.map_some'] at ih ⊢
      rw [ih]

theorem SET_ACCOUNT_at (s : State) (i : Nat) (hi : i < s.accounts.length) (acc : Account) :
    SET_ACCOUNT s { index := some (i : Int), account := acc } =
      { s with accounts := s.accounts.set i (some acc) } := by
  have hg : (i : Int) > -1 := by omega
  simp only [SET_ACCOUNT, hg, if_true, Int.toNat_ofNat, vueSet_of_lt s.accounts i hi]

/-- Replacing the record of a position by one with the same address keeps the list of
stored addresses. -/
theorem SET_ACCOUNT_same_address (s : State) (i : Nat) (a b : Account)
    (h : s.accounts.get? i = some (some a)) (hab : a.address = b.address) :
    storedAddresses (SET_ACCOUNT s { index := some (i : Int), account := b }).accounts =
      storedAddresses s.accounts := by
  have hi : i < s.accounts.length := by
    rcases Nat.lt_or_ge i s.accounts.length with h1 | h1
    · exact h1
    · rw [List.get?_eq_none.mpr h1] at h
      cases h
  rw [SET_ACCOUNT_at s i hi b]
  exact storedAddresses_set_same b s.accounts i a h hab

theorem elemAt_eq_some {xs : List Slot} {i : Nat} {a : Account}
    (h : elemAt xs (i : Int) = some a) : xs.get? i = some (some a) := by
  have hn : ¬ ((i : Int) < 0) := by omega
  simp only [elemAt, hn, if_false, Int.toNat_ofNat] at h
  cases hx : xs.get? i with
  | none => rw [hx] at h; cases h
  | some x =>
    rw [hx] at h
    cases x with
    | none => cases h
    | some c =>
      have : c = a := by simpa [Option.join] using h
      rw [this]

/-- What the lookup returns when it returns: nothing with index `-1`, or the first
position holding the checksummed address together with the record stored there. -/
theorem getAccountAndIndexByAddress_ok (W : Wallet) (s : State) (x : String) (r : Lookup)
    (h : getAccountAndIndexByAddress W s x = .ok r) :
    (r = { account := none, index := -1 } ∧
      ∀ y ∈ s.accounts, ∃ b : Account, y = some b ∧ b.address ≠ W.toChecksumAddress x) ∨
    ∃ (i : Nat) (acc : Account), r = { account := some acc, index := (i : Int) } ∧
      s.accounts.get? i = some (some acc) ∧ acc.address = W.toChecksumAddress x ∧
      ∀ m, m < i → ∃ b : Account, s.accounts.get? m = some (some b) ∧
        b.address ≠ W.toChecksumAddress x := by
  simp only [getAccountAndIndexByAddress] at h
  cases hscan : scanByAddress s.accounts (W.toChecksumAddress x) 0 with
  | error e => rw [hscan] at h; cases h
  | ok o =>
    rw [hscan] at h
    cases o with
    | none =>
      left
      simp only [Except.ok.injEq] at h
      exact ⟨h.symm, scanByAddress_ok_none _ _ _ hscan⟩
    | some k =>
      right
      obtain ⟨j, acc, hk, hj, hget, hacc, hfirst⟩ := scanByAddress_ok_some _ _ _ _ hscan
      have hkj : k = j := by omega
      subst hkj
      simp only [Except.ok.injEq] at h
      refine ⟨k, acc, ?_, hget, hacc, hfirst⟩
      rw [← h]
      have hn : ¬ ((k : Int) < 0) := by omega
      simp only [elemAt, hn, if_false, Int.toNat_ofNat, hget, Option.join, Option.some_bind, id]

theorem ADD_ACCOUNT_distinct (W : Wallet) (s : State) (k : Keystore)
    (h : AddressesDistinct s) : AddressesDistinct (ADD_ACCOUNT W s k).state := by
  rcases ADD_ACCOUNT_cases W s k with h1 | ⟨acc, _, habs, h1⟩
  · rw [h1]
    exact h
  · rw [h1]
    exact nodup_push s.accounts acc habs h

theorem ADD_LEDGER_ACCOUNT_distinct (W : Wallet) (s : State) (a : Account)
    (h : AddressesDistinct s) : AddressesDistinct (ADD_LEDGER_ACCOUNT W s a).state := by
  rcases ADD_LEDGER_ACCOUNT_cases W s a with h1 | ⟨acc, _, habs, h1⟩
  · rw [h1]
    exact h
  · rw [h1]
    exact nodup_push s.accounts acc habs h

theorem REMOVE_ACTIVE_ACCOUNT_distinct (s : State) (h : AddressesDistinct s) :
    AddressesDistinct (REMOVE_ACTIVE_ACCOUNT s) := by
  unfold REMOVE_ACTIVE_ACCOUNT
  split
  · next hg =>
    have hi : s.activeAccountIndex = (s.activeAccountIndex.toNat : Int) := by omega
    have hsub := splice_delete_one_sublist s.accounts s.activeAccountIndex.toNat
    rw [← hi] at hsub
    exact List.Nodup.sublist (List.Sublist.filterMap _ hsub) h
  · exact h

theorem MOVE_ACCOUNT_distinct (s : State) (from_ to_ : Int) (h : AddressesDistinct s) :
    AddressesDistinct (MOVE_ACCOUNT s from_ to_) :=
  (List.Perm.nodup_iff (List.Perm.filterMap _ (MOVE_ACCOUNT_perm s from_ to_))).mpr h

theorem updateAccountsBalancesLoop_storedAddresses (W : Wallet) :
    ∀ (n i : Nat) (s : State),
      storedAddresses (updateAccountsBalancesLoop W n i s).state.accounts =
        storedAddresses s.accounts
  | 0, _, _ => rfl
  | n + 1, i, s => by
    simp only [updateAccountsBalancesLoop]
    cases h : elemAt s.accounts (i : Int) with
    | none => rfl
    | some account =>
      simp only []
      rw [updateAccountsBalancesLoop_storedAddresses W n (i + 1)]
      exact SET_ACCOUNT_same_address s i account _ (elemAt_eq_some h) rfl

theorem UPDATE_ACCOUNTS_BALANCES_distinct (W : Wallet) (s : State) (h : AddressesDistinct s) :
    AddressesDistinct (UPDATE_ACCOUNTS_BALANCES W s).state := by
  unfold AddressesDistinct UPDATE_ACCOUNTS_BALANCES
  rw [updateAccountsBalancesLoop_storedAddresses]
  exact h

theorem UPDATE_ACCOUNT_BALANCE_storedAddresses (W : Wallet) (s : State)
    (_account : Option Account)
    (hfix : ∀ a : Account, (_account <|> currentAccount s) = some a →
      W.toChecksumAddress a.address = a.address) :
    storedAddresses (UPDATE_ACCOUNT_BALANCE W s _account).state.accounts =
      storedAddresses s.accounts := by
  simp only [UPDATE_ACCOUNT_BALANCE]
  cases ht : (_account <|> currentAccount s) with
  | none => rfl
  | some account =>
    simp only []
    cases hl : getAccountAndIndexByAddress W s account.address with
    | error e => rfl
    | ok r =>
      simp only []
      rcases getAccountAndIndexByAddress_ok W s account.address r hl with
        ⟨hr, _⟩ | ⟨i, acc, hr, hget, hacc, _⟩
      · subst hr
        rfl
      · subst hr
        have hg : (i : Int) > -1 := by omega
        simp only [hg, if_true, Outcome.state]
        exact SET_ACCOUNT_same_address s i acc _ hget (hacc.trans (hfix account ht))

theorem UPDATE_ACCOUNT_perm (W : Wallet) (s : State) (req : UpdateRequest) :
    List.Perm (storedAddresses (UPDATE_ACCOUNT W s req).state.accounts)
      (storedAddresses s.accounts) := by
  simp only [UPDATE_ACCOUNT]
  cases hl : getAccountAndIndexByAddress W s req.address with
  | error e => exact List.Perm.refl _
  | ok r =>
    simp only []
    rcases getAccountAndIndexByAddress_ok W s req.address r hl with
      ⟨hr, _⟩ | ⟨i, acc, hr, hget, hacc, _⟩
    · subst hr
      exact List.Perm.refl _
    · subst hr
      simp only []
      have hset := SET_ACCOUNT_same_address s i acc
        { acc with name := if req.name ≠ some acc.address then req.name else some "" } hget rfl
      cases req.order with
      | none =>
        simp only [Outcome.state]
        rw [hset]
      | some order =>
        simp only []
        split
        · simp only [Outcome.state]
          rw [← hset]
          exact List.Perm.filterMap _ (MOVE_ACCOUNT_perm _ _ _)
        · simp only [Outcome.state]
          rw [hset]

theorem UPDATE_ACCOUNT_distinct (W : Wallet) (s : State) (req : UpdateRequest)
    (h : AddressesDistinct s) : AddressesDistinct (UPDATE_ACCOUNT W s req).state :=
  (List.Perm.nodup_iff (UPDATE_ACCOUNT_perm W s req)).mpr h

/-- C5 as stated fails: in the registry `[0xABC, 0xabc]`, whose addresses are distinct,
`UPDATE_ACCOUNT_BALANCE` with the explicit account `0xabc` looks up
`toChecksumAddress(0xabc) = 0xABC`, finds it at position 0 and writes the argument, with
its own address `0xabc`, there: two accounts then share the address `0xabc`. -/
theorem refreshOneBalance_duplicates_address :
    AddressesDistinct (registryOf ["0xABC", "0xabc"] (-1)) ∧
    storedAddresses (UPDATE_ACCOUNT_BALANCE sampleWallet (registryOf ["0xABC", "0xabc"] (-1))
      (some (accountAt "0xabc"))).state.accounts = ["0xabc", "0xabc"] ∧
    ¬ AddressesDistinct (UPDATE_ACCOUNT_BALANCE sampleWallet
      (registryOf ["0xABC", "0xabc"] (-1)) (some (accountAt "0xabc"))).state := by
  decide

/-- The same defect without an argument: with the second account of `[0xABC, 0xabc]`
active, `UPDATE_ACCOUNT_BALANCE` overwrites position 0. -/
theorem refreshOneBalance_current_duplicates_address :
    storedAddresses (UPDATE_ACCOUNT_BALANCE sampleWallet (registryOf ["0xABC", "0xabc"] 1)
      none).state.accounts = ["0xabc", "0xabc"] := by
  decide

/-- A registry with the two addresses `0xabc` and `0xABC` is reached from the initial
state by registry operations alone: add `0xabc`, refresh the balance of an account
object carrying the address `0xabc`, add `0xabc` again. -/
theorem unnormalized_registry_reachable :
    storedAddresses (ADD_ACCOUNT sampleWallet
      (UPDATE_ACCOUNT_BALANCE sampleWallet
        (ADD_ACCOUNT sampleWallet initialState { address := "0xabc", body := "" }).state
        (some (accountAt "0xabc"))).state
      { address := "0xabc", body := "" }).state.accounts = ["0xabc", "0xABC"] := by
  decide

/-- C5, amended: from a state whose stored addresses are pairwise distinct, each registry
operation (`ADD_ACCOUNT`, `ADD_LEDGER_ACCOUNT`, `REMOVE_ACTIVE_ACCOUNT`, `MOVE_ACCOUNT`,
`UPDATE_ACCOUNT_BALANCE`, `UPDATE_ACCOUNTS_BALANCES`, `UPDATE_ACCOUNT`), with any
arguments and balances, leaves them pairwise distinct, provided the account whose balance
`UPDATE_ACCOUNT_BALANCE` refreshes (the argument, or the current account when there is
none) has an address that `toChecksumAddress` leaves as it is. -/
theorem operations_keep_addresses_distinct (W : Wallet) (s : State) (h : AddressesDistinct s)
    (_keystore : Keystore) (_ledger : Account) (from_ to_ : Int) (_account : Option Account)
    (_accountData : UpdateRequest)
    (hfix : ∀ a : Account, (_account <|> currentAccount s) = some a →
      W.toChecksumAddress a.address = a.address) :
    AddressesDistinct (ADD_ACCOUNT W s _keystore).state ∧
    AddressesDistinct (ADD_LEDGER_ACCOUNT W s _ledger).state ∧
    AddressesDistinct (REMOVE_ACTIVE_ACCOUNT s) ∧
    AddressesDistinct (MOVE_ACCOUNT s from_ to_) ∧
    AddressesDistinct (UPDATE_ACCOUNT_BALANCE W s _account).state ∧
    AddressesDistinct (UPDATE_ACCOUNTS_BALANCES W s).state ∧
    AddressesDistinct (UPDATE_ACCOUNT W s _accountData).state := by
  refine ⟨ADD_ACCOUNT_distinct W s _keystore h, ADD_LEDGER_ACCOUNT_distinct W s _ledger h,
    REMOVE_ACTIVE_ACCOUNT_distinct s h, MOVE_ACCOUNT_distinct s from_ to_ h, ?_,
    UPDATE_ACCOUNTS_BALANCES_distinct W s h, UPDATE_ACCOUNT_distinct W s _accountData h⟩
  unfold AddressesDistinct
  rw [UPDATE_ACCOUNT_BALANCE_storedAddresses W s _account hfix]
  exact h

/-- An instance of the amended C5: `[0xABC, 0xdef]` with the first account active, a new
keystore, a duplicate ledger stub, a move, a refresh of the current account and a rename
with reorder. -/
theorem operations_keep_addresses_distinct_witness :
    AddressesDistinct (ADD_ACCOUNT sampleWallet (registryOf ["0xABC", "0xdef"] 0)
      { address := "0x123", body := "" }).state ∧
    AddressesDistinct (ADD_LEDGER_ACCOUNT sampleWallet (registryOf ["0xABC", "0xdef"] 0)
      (accountAt "0xabc")).state ∧
    AddressesDistinct (REMOVE_ACTIVE_ACCOUNT (registryOf ["0xABC", "0xdef"] 0)) ∧
    AddressesDistinct (MOVE_ACCOUNT (registryOf ["0xABC", "0xdef"] 0) 0 1) ∧
    AddressesDistinct (UPDATE_ACCOUNT_BALANCE sampleWallet (registryOf ["0xABC", "0xdef"] 0)
      none).state ∧
    AddressesDistinct (UPDATE_ACCOUNTS_BALANCES sampleWallet
      (registryOf ["0xABC", "0xdef"] 0)).state ∧
    AddressesDistinct (UPDATE_ACCOUNT sampleWallet (registryOf ["0xABC", "0xdef"] 0)
      { address := "0xabc", name := some "Main", order := some 2 }).state :=
  operations_keep_addresses_distinct sampleWallet (registryOf ["0xABC", "0xdef"] 0) (by decide)
    { address := "0x123", body := "" } (accountAt "0xabc") 0 1 none
    { address := "0xabc", name := some "Main", order := some 2 }
    (fun a ha => by
      have hc : (none <|> currentAccount (registryOf ["0xABC", "0xdef"] 0)) =
          some (accountAt "0xABC") := by decide
      rw [hc] at ha
      cases ha
      decide)

theorem map_eraseIdx_some {α β : Type} (f : α → β) :
    ∀ (l : List α) (i : Nat), (l.map f).eraseIdx i = (l.eraseIdx i).map f
  | [], _ => rfl
  | _ :: _, 0 => rfl
  | x :: l, i + 1 => by
    simp only [List.map_cons, List.eraseIdx_cons_succ, map_eraseIdx_some f l i]

theorem map_insertIdx_some {α β : Type} (f : α → β) (a : α) :
    ∀ (l : List α) (p : Nat), (l.map f).insertIdx p (f a) = (l.insertIdx p a).map f
  | _, 0 => by simp
  | [], p + 1 => by simp
  | x :: l, p + 1 => by
    simp only [List.map_cons, List.insertIdx_succ_cons, map_insertIdx_some f a l p]

theorem set_eq_insertIdx_eraseIdx {α : Type} (a : α) :
    ∀ (l : List α) (i : Nat), i < l.length → l.set i a = (l.eraseIdx i).insertIdx i a
  | [], _, h => by simp at h
  | _ :: _, 0, _ => by simp
  | x :: l, i + 1, h => by
    have ih := set_eq_insertIdx_eraseIdx a l i (by simpa using h)
    simp only [List.set_cons_succ, List.eraseIdx_cons_succ, List.insertIdx_succ_cons, ih]

theorem eraseIdx_set_self {α : Type} (a : α) :
    ∀ (l : List α) (i : Nat), (l.set i a).eraseIdx i = l.eraseIdx i
  | [], _ => by simp
  | _ :: _, 0 => by simp
  | x :: l, i + 1 => by
    simp only [List.set_cons_succ, List.eraseIdx_cons_succ, eraseIdx_set_self a l i]

/-- With distinct addresses, no other position holds the address of position `i`. -/
theorem address_ne_of_nodup (accs : List Account)
    (hn : (accs.map (fun a => a.address)).Nodup) (i j : Nat) (hi : i < accs.length)
    (hj : j < accs.length) (hij : j ≠ i) : accs[j].address ≠ accs[i].address := by
  intro h
  have hi2 : i < (accs.map (fun a => a.address)).length := by simpa using hi
  have hj2 : j < (accs.map (fun a => a.address)).length := by simpa using hj
  have := (@List.Nodup.getElem_inj_iff _ _ hn j hj2 i hi2).mp (by simpa using h)
  exact hij this

theorem elemAt_dense (accs : List Account) (i : Nat) (hi : i < accs.length) :
    elemAt (accs.map some) (i : Int) = some accs[i] := by
  have hn : ¬ ((i : Int) < 0) := by omega
  simp [elemAt, hn, List.getElem?_eq_getElem hi, Option.join]

theorem getAccountAndIndexByAddress_dense (W : Wallet) (base : State) (accs : List Account)
    (x : String) (i : Nat) (hi : i < accs.length)
    (hn : (accs.map (fun a => a.address)).Nodup)
    (hfound : accs[i].address = W.toChecksumAddress x) :
    getAccountAndIndexByAddress W { base with accounts := accs.map some } x =
      .ok { account := some accs[i], index := (i : Int) } := by
  have hfirst : ∀ (j : Nat) (hj : j < i), accs[j].address ≠ W.toChecksumAddress x := by
    intro j hj
    rw [← hfound]
    exact address_ne_of_nodup accs hn i j hi (by omega) (by omega)
  simp only [getAccountAndIndexByAddress,
    scanByAddress_dense_first _ accs 0 i hi hfound hfirst, Nat.zero_add, elemAt_dense accs i hi]

/-- On an array of accounts with distinct addresses, a request whose address is found at
position `i` and whose name is not the stored address completes; the renamed record then
sits at some position `p` among the other records, which are as before. -/
theorem UPDATE_ACCOUNT_found (W : Wallet) (base : State) (accs : List Account)
    (req : UpdateRequest) (i : Nat) (hi : i < accs.length)
    (hn : (accs.map (fun a => a.address)).Nodup)
    (hfound : accs[i].address = W.toChecksumAddress req.address)
    (hname : req.name ≠ some accs[i].address) :
    ∃ p : Nat, p < accs.length ∧
      UPDATE_ACCOUNT W { base with accounts := accs.map some } req =
        .done { base with accounts :=
          ((accs.eraseIdx i).insertIdx p { accs[i] with name := req.name }).map some } ∧
      (∀ o : Int, req.order = some o → 1 ≤ o → o ≤ (accs.length : Int) → (p : Int) = o - 1) := by
  have hlen : i < (accs.map some).length := by simpa using hi
  have hs1 : SET_ACCOUNT { base with accounts := accs.map some }
      { index := some (i : Int), account := { accs[i] with name := req.name } } =
      { base with accounts := (accs.set i { accs[i] with name := req.name }).map some } := by
    rw [SET_ACCOUNT_at _ i hlen]
    simp only [List.map_set]
  have hins := set_eq_insertIdx_eraseIdx { accs[i] with name := req.name } accs i hi
  simp only [UPDATE_ACCOUNT, getAccountAndIndexByAddress_dense W base accs req.address i hi hn hfound,
    if_pos hname, hs1]
  cases horder : req.order with
  | none =>
    refine ⟨i, hi, by rw [hins], ?_⟩
    intro o ho
    cases ho
  | some order =>
    simp only []
    by_cases hmove : order - 1 ≠ (i : Int)
    · rw [if_pos hmove]
      by_cases hvalid : 0 ≤ order - 1 ∧ order - 1 < (accs.length : Int)
      · obtain ⟨hv0, hv1⟩ := hvalid
        obtain ⟨t, ht⟩ := Int.eq_ofNat_of_zero_le hv0
        have htlt : t < accs.length := by omega
        have hti : i ≠ t := by omega
        refine ⟨t, htlt, ?_, ?_⟩
        · rw [ht]
          rw [MOVE_ACCOUNT_valid _ i t hti (by simpa using hi) (by simpa using htlt)]
          simp only [map_eraseIdx_some, eraseIdx_set_self, List.getElem_map,
            List.getElem_set_self, map_insertIdx_some]
        · intro o ho _ _
          cases ho
          exact ht.symm
      · refine ⟨i, hi, ?_, ?_⟩
        · rw [MOVE_ACCOUNT_invalid, hins]
          simp only [List.length_map, List.length_set]
          omega
        · intro o ho h1 h2
          cases ho
          exact absurd ⟨by omega, by omega⟩ hvalid
    · rw [if_neg hmove]
      refine ⟨i, hi, by rw [hins], ?_⟩
      intro o ho _ _
      cases ho
      omega

/-- C10: on an array of accounts with pairwise distinct addresses, for a request whose
checksummed address is stored at position `i` and whose name is not the stored address,
`UPDATE_ACCOUNT` completes with an array of the same length in which the record of that
address is the old one with `name` replaced by the requested name (every other field
as before). It sits at a position `p`, the other records keep their relative order
(erasing `p` afterwards gives what erasing `i` gave before), and `p = order - 1`
whenever `1 <= order <= length`. -/
theorem renameAndReorder_spec (W : Wallet) (base : State) (accs : List Account)
    (req : UpdateRequest) (i : Nat) (hi : i < accs.length)
    (hn : (accs.map (fun a => a.address)).Nodup)
    (hfound : accs[i].address = W.toChecksumAddress req.address)
    (hname : req.name ≠ some accs[i].address) :
    ∃ (accs1 : List Account) (p : Nat) (hp : p < accs1.length),
      UPDATE_ACCOUNT W { base with accounts := accs.map some } req =
        .done { base with accounts := accs1.map some } ∧
      accs1.length = accs.length ∧
      accs1[p] = { accs[i] with name := req.name } ∧
      (∀ a ∈ accs1, a.address = accs[i].address → a = { accs[i] with name := req.name }) ∧
      accs1.eraseIdx p = accs.eraseIdx i ∧
      (∀ o : Int, req.order = some o → 1 ≤ o → o ≤ (accs.length : Int) →
        (p : Int) = o - 1) := by
  obtain ⟨p, hp, hrun, horder⟩ := UPDATE_ACCOUNT_found W base accs req i hi hn hfound hname
  have hple : p ≤ (accs.eraseIdx i).length := by
    rw [List.length_eraseIdx]
    simp only [hi, if_true]
    omega
  have hlen : ((accs.eraseIdx i).insertIdx p { accs[i] with name := req.name }).length =
      accs.length := by
    rw [List.length_insertIdx _ _ hple, List.length_eraseIdx]
    simp only [hi, if_true]
    omega
  refine ⟨(accs.eraseIdx i).insertIdx p { accs[i] with name := req.name }, p,
    by rw [hlen]; exact hp, hrun, hlen, List.getElem_insertIdx_self _ _ _ hple, ?_,
    List.eraseIdx_insertIdx p _, horder⟩
  intro a ha haddr
  rcases (List.mem_insertIdx hple).mp ha with h | h
  · exact h
  · obtain ⟨j, hj, hji, hja⟩ := List.mem_eraseIdx_iff_getElem.mp h
    rw [← hja] at haddr
    exact absurd haddr (address_ne_of_nodup accs hn i j hi hj hji)

/-- The scenario of C10: `[A(addr = 0x1, bal = 10)]` with the request
`{address: 0x1, name: "Main", order: 1}` gives the name `Main` at index 0. -/
theorem renameAndReorder_spec_witness :
    UPDATE_ACCOUNT sampleWallet { initialState with accounts := [some scenarioAccount] }
        scenarioRequest =
      .done { initialState with
        accounts := [some { scenarioAccount with name := some "Main" }] } ∧
    ∃ (accs1 : List Account) (p : Nat) (hp : p < accs1.length),
      UPDATE_ACCOUNT sampleWallet { initialState with accounts := [scenarioAccount].map some }
          scenarioRequest =
        .done { initialState with accounts := accs1.map some } ∧
      accs1.length = [scenarioAccount].length ∧
      accs1[p] = { scenarioAccount with name := scenarioRequest.name } ∧
      (∀ a ∈ accs1, a.address = scenarioAccount.address →
        a = { scenarioAccount with name := scenarioRequest.name }) ∧
      accs1.eraseIdx p = [scenarioAccount].eraseIdx 0 ∧
      (∀ o : Int, scenarioRequest.order = some o → 1 ≤ o →
        o ≤ ([scenarioAccount].length : Int) → (p : Int) = o - 1) :=
  ⟨by decide,
   renameAndReorder_spec sampleWallet initialState [scenarioAccount] scenarioRequest 0
     (by decide) (by decide) (by decide) (by decide)⟩

/-- C13: `SET_ACCOUNT` with `0 <= index < length` replaces the element at `index` by the
supplied record without its `index` property and changes nothing else: the array has
the same length, position `index` holds exactly the supplied record, every other
position holds what it held, and the rest of the state (so `activeAccountIndex`) is as
before. -/
theorem replaceAt_valid (s : State) (index : Int) (record : Account) (h0 : 0 ≤ index)
    (h1 : index < (s.accounts.length : Int)) :
    SET_ACCOUNT s { index := some index, account := record } =
      { s with accounts := s.accounts.set index.toNat (some record) } ∧
    (SET_ACCOUNT s { index := some index, account := record }).accounts.length =
      s.accounts.length ∧
    (SET_ACCOUNT s { index := some index, account := record }).accounts.get? index.toNat =
      some (some record) ∧
    (∀ j : Nat, j ≠ index.toNat →
      (SET_ACCOUNT s { index := some index, account := record }).accounts.get? j =
        s.accounts.get? j) ∧
    (SET_ACCOUNT s { index := some index, account := record }).activeAccountIndex =
      s.activeAccountIndex := by
  lift index to Nat using h0 with i
  have hi : i < s.accounts.length := by omega
  rw [SET_ACCOUNT_at s i hi record]
  simp only [Int.toNat_ofNat]
  refine ⟨trivial, List.length_set _ _ _, ?_, ?_, trivial⟩
  · rw [List.get?_eq_getElem?, List.getElem?_set_self hi]
  · intro j hj
    rw [List.get?_eq_getElem?, List.get?_eq_getElem?, List.getElem?_set_ne (Ne.symm hj)]

/-- An instance of C13: replacing the second record of `[A, B, C]`, the first being active. -/
theorem replaceAt_valid_witness :
    SET_ACCOUNT (registryOf ["A", "B", "C"] 0) { index := some 1, account := accountAt "Z" } =
      { registryOf ["A", "B", "C"] 0 with
        accounts := (registryOf ["A", "B", "C"] 0).accounts.set 1 (some (accountAt "Z")) } ∧
    (SET_ACCOUNT (registryOf ["A", "B", "C"] 0)
      { index := some 1, account := accountAt "Z" }).accounts.length = 3 ∧
    (SET_ACCOUNT (registryOf ["A", "B", "C"] 0)
      { index := some 1, account := accountAt "Z" }).accounts.get? 1 =
      some (some (accountAt "Z")) ∧
    (∀ j : Nat, j ≠ 1 →
      (SET_ACCOUNT (registryOf ["A", "B", "C"] 0)
        { index := some 1, account := accountAt "Z" }).accounts.get? j =
        (registryOf ["A", "B", "C"] 0).accounts.get? j) ∧
    (SET_ACCOUNT (registryOf ["A", "B", "C"] 0)
      { index := some 1, account := accountAt "Z" }).activeAccountIndex = 0 :=
  replaceAt_valid (registryOf ["A", "B", "C"] 0) 1 (accountAt "Z") (by decide) (by decide)

/-- C14 as stated fails for an index past the end: `SET_ACCOUNT` on `[A, B]` with
`index = 2` appends the record, and with `index = 4` it also pads the array with two
holes; the length changes from 2 to 3 and to 5. -/
theorem replaceAt_past_end_grows :
    (SET_ACCOUNT (registryOf ["A", "B"] 0) { index := some 2, account := accountAt "Z" }).accounts =
      [some (accountAt "A"), some (accountAt "B"), some (accountAt "Z")] ∧
    (SET_ACCOUNT (registryOf ["A", "B"] 0) { index := some 4, account := accountAt "Z" }).accounts =
      [some (accountAt "A"), some (accountAt "B"), none, none, some (accountAt "Z")] ∧
    (SET_ACCOUNT (registryOf ["A", "B"] 0)
      { index := some 2, account := accountAt "Z" }).accounts ≠
      (registryOf ["A", "B"] 0).accounts := by
  decide

/-- C14, amended: `SET_ACCOUNT` with a record whose `index` is missing or negative
returns the state it was given, so the array, its length and `activeAccountIndex` are
unchanged. -/
theorem replaceAt_missing_or_negative_noop (s : State) (d : AccountData)
    (h : d.index = none ∨ ∃ index : Int, d.index = some index ∧ index < 0) :
    SET_ACCOUNT s d = s := by
  rcases h with h | ⟨index, h, hneg⟩
  · simp only [SET_ACCOUNT, h]
  · have hg : ¬ index > -1 := by omega
    simp only [SET_ACCOUNT, h, hg, if_false]

/-- An instance of the amended C14: the index `-1` of a failed lookup. -/
theorem replaceAt_missing_or_negative_noop_witness :
    SET_ACCOUNT (registryOf ["A", "B"] 0) { index := some (-1), account := accountAt "Z" } =
      registryOf ["A", "B"] 0 :=
  replaceAt_missing_or_negative_noop (registryOf ["A", "B"] 0)
    { index := some (-1), account := accountAt "Z" } (Or.inr ⟨-1, rfl, by decide⟩)

theorem findByAddress_of_scan_error (address : String) :
    ∀ (xs : List Slot) (i : Nat) (e : JsError), scanByAddress xs address i = .error e →
      findByAddress xs address = .error e
  | [], _, _, h => by simp [scanByAddress] at h
  | none :: _, _, e, _ => by cases e; rfl
  | some a :: xs, i, e, h => by
    by_cases ha : a.address = address
    · simp [scanByAddress, ha] at h
    · simp only [scanByAddress, ha, if_false] at h
      simp only [findByAddress, ha, if_false]
      exact findByAddress_of_scan_error address xs (i + 1) e h

theorem findByAddress_of_scan_none (address : String) :
    ∀ (xs : List Slot) (i : Nat), scanByAddress xs address i = .ok none →
      findByAddress xs address = .ok none
  | [], _, _ => rfl
  | none :: _, _, h => by simp [scanByAddress] at h
  | some a :: xs, i, h => by
    by_cases ha : a.address = address
    · simp [scanByAddress, ha] at h
    · simp only [scanByAddress, ha, if_false] at h
      simp only [findByAddress, ha, if_false]
      exact findByAddress_of_scan_none address xs (i + 1) h

theorem findByAddress_of_scan_some (address : String) :
    ∀ (xs : List Slot) (i k : Nat), scanByAddress xs address i = .ok (some k) →
      ∃ a : Account, findByAddress xs address = .ok (some a) ∧ i ≤ k ∧
        xs.get? (k - i) = some (some a)
  | [], _, _, h => by simp [scanByAddress] at h
  | none :: _, _, _, h => by simp [scanByAddress] at h
  | some a :: xs, i, k, h => by
    by_cases ha : a.address = address
    · simp only [scanByAddress, ha, if_true, Except.ok.injEq, Option.some.injEq] at h
      subst h
      exact ⟨a, by simp only [findByAddress, ha, if_true], Nat.le_refl _, by simp⟩
    · simp only [scanByAddress, ha, if_false] at h
      obtain ⟨b, hb, hik, hget⟩ := findByAddress_of_scan_some address xs (i + 1) k h
      refine ⟨b, by simp only [findByAddress, ha, if_false, hb], by omega, ?_⟩
      have hk : k - i = (k - (i + 1)) + 1 := by omega
      rw [hk]
      simpa using hget

/-- On an array of accounts the scan completes. -/
theorem scanByAddress_dense_ok (address : String) (accs : List Account) (i : Nat) :
    ∃ o : Option Nat, scanByAddress (accs.map some) address i = .ok o := by
  rcases first_or_absent address accs with h | ⟨k, hk, hkk, hfirst⟩
  · exact ⟨none, scanByAddress_dense_none address accs i h⟩
  · exact ⟨some (i + k), scanByAddress_dense_first address accs i k hk hkk hfirst⟩

/-- On an array of accounts the lookup with index completes. -/
theorem getAccountAndIndexByAddress_dense_ok (W : Wallet) (base : State) (accs : List Account)
    (x : String) :
    ∃ r : Lookup,
      getAccountAndIndexByAddress W { base with accounts := accs.map some } x = .ok r := by
  obtain ⟨o, ho⟩ := scanByAddress_dense_ok (W.toChecksumAddress x) accs 0
  simp only [getAccountAndIndexByAddress, ho]
  cases o with
  | none => exact ⟨_, rfl⟩
  | some k => exact ⟨_, rfl⟩

theorem get?_dense {accs : List Account} {i : Nat} {a : Account}
    (h : (accs.map some).get? i = some (some a)) :
    ∃ hi : i < accs.length, accs[i] = a := by
  rw [List.get?_eq_getElem?, List.getElem?_map] at h
  rcases Nat.lt_or_ge i accs.length with hi | hi
  · refine ⟨hi, ?_⟩
    rw [List.getElem?_eq_getElem hi] at h
    simpa using h
  · rw [List.getElem?_eq_none hi] at h
    simp at h

/-- C15: on an array of accounts, `getAccountAndIndexByAddress` completes; the result is
`{account: null, index: -1}` exactly when no stored address equals
`toChecksumAddress(address)`; otherwise `index` is the smallest position whose stored
address equals it, `0 <= index < length`, and `account` is the element there. -/
theorem lookupWithIndex_spec (W : Wallet) (base : State) (accs : List Account) (_address : String) :
    ∃ r : Lookup,
      getAccountAndIndexByAddress W { base with accounts := accs.map some } _address = .ok r ∧
      (r = { account := none, index := -1 } ↔
        ∀ a ∈ accs, a.address ≠ W.toChecksumAddress _address) ∧
      ((∃ a ∈ accs, a.address = W.toChecksumAddress _address) →
        ∃ (i : Nat) (hi : i < accs.length), r.index = (i : Int) ∧ r.account = some accs[i] ∧
          accs[i].address = W.toChecksumAddress _address ∧
          ∀ (j : Nat) (hj : j < i), accs[j].address ≠ W.toChecksumAddress _address) := by
  obtain ⟨r, hr⟩ := getAccountAndIndexByAddress_dense_ok W base accs _address
  refine ⟨r, hr, ?_, ?_⟩
  · rcases getAccountAndIndexByAddress_ok W _ _address r hr with
      ⟨h1, h2⟩ | ⟨i, acc, h1, hget, hacc, _⟩
    · refine ⟨fun _ a ha => ?_, fun _ => h1⟩
      obtain ⟨b, hb, hne⟩ := h2 (some a) (List.mem_map_of_mem some ha)
      cases hb
      exact hne
    · constructor
      · intro h
        rw [h1] at h
        have : (i : Int) = -1 := by injection h
        omega
      · intro h
        obtain ⟨hi, hacci⟩ := get?_dense hget
        exact absurd hacc (hacci ▸ h _ (List.getElem_mem hi))
  · rintro ⟨a, ha, haa⟩
    rcases getAccountAndIndexByAddress_ok W _ _address r hr with
      ⟨_, h2⟩ | ⟨i, acc, h1, hget, hacc, hfirst⟩
    · obtain ⟨b, hb, hne⟩ := h2 (some a) (List.mem_map_of_mem some ha)
      cases hb
      exact absurd haa hne
    · obtain ⟨hi, hacci⟩ := get?_dense hget
      refine ⟨i, hi, by rw [h1], by rw [h1, hacci], by rw [hacci]; exact hacc, ?_⟩
      intro j hj
      obtain ⟨b, hb, hne⟩ := hfirst j hj
      obtain ⟨hj2, hbj⟩ := get?_dense hb
      rw [hbj]
      exact hne

/-- C16: `UPDATE_ACCOUNT_BALANCE` leaves the state, so the array and `activeAccountIndex`,
as it was when no target resolves (no argument and `activeAccountIndex = -1`) or when no
stored address equals the checksummed address of the target, for any wallet. -/
theorem refreshOneBalance_noop (W : Wallet) (s : State) (_account : Option Account)
    (h : (_account = none ∧ s.activeAccountIndex = -1) ∨
      ∃ target : Account, (_account <|> currentAccount s) = some target ∧
        ∀ b : Account, some b ∈ s.accounts → b.address ≠ W.toChecksumAddress target.address) :
    (UPDATE_ACCOUNT_BALANCE W s _account).state = s := by
  rcases h with ⟨h1, h2⟩ | ⟨target, ht, habs⟩
  · have hc : currentAccount s = none := by
      have hg : ¬ s.activeAccountIndex > -1 := by omega
      simp only [currentAccount, hg, if_false]
    simp only [UPDATE_ACCOUNT_BALANCE, h1, hc]
    rfl
  · simp only [UPDATE_ACCOUNT_BALANCE, ht]
    cases hl : getAccountAndIndexByAddress W s target.address with
    | error e => rfl
    | ok r =>
      simp only []
      rcases getAccountAndIndexByAddress_ok W s target.address r hl with
        ⟨hr, _⟩ | ⟨i, acc, _, hget, hacc, _⟩
      · subst hr
        rfl
      · exact absurd hacc (habs acc (List.get?_mem hget))

/-- An instance of C16: `[0xABC]` with the target address `0xdef`, which is not stored. -/
theorem refreshOneBalance_noop_witness :
    (UPDATE_ACCOUNT_BALANCE sampleWallet (registryOf ["0xABC"] 0)
      (some (accountAt "0xdef"))).state = registryOf ["0xABC"] 0 :=
  refreshOneBalance_noop sampleWallet (registryOf ["0xABC"] 0) (some (accountAt "0xdef"))
    (Or.inr ⟨accountAt "0xdef", rfl, fun b hb => by
      have hb2 : b = accountAt "0xABC" := by simpa [registryOf] using hb
      rw [hb2]
      decide⟩)

theorem MOVE_ACCOUNT_activeAccountAddress (s : State) (from_ to_ : Int) :
    (MOVE_ACCOUNT s from_ to_).activeAccountAddress = s.activeAccountAddress := by
  unfold MOVE_ACCOUNT
  simp only []
  split <;> rfl

theorem SET_ACCOUNT_activeAccountAddress (s : State) (d : AccountData) :
    (SET_ACCOUNT s d).activeAccountAddress = s.activeAccountAddress := by
  unfold SET_ACCOUNT
  split
  · rfl
  · split <;> rfl

/-- The rename with reorder touches neither the active index nor the cached address. -/
theorem UPDATE_ACCOUNT_active (W : Wallet) (s : State) (req : UpdateRequest) :
    (UPDATE_ACCOUNT W s req).state.activeAccountIndex = s.activeAccountIndex ∧
    (UPDATE_ACCOUNT W s req).state.activeAccountAddress = s.activeAccountAddress := by
  simp only [UPDATE_ACCOUNT]
  cases getAccountAndIndexByAddress W s req.address with
  | error e => exact ⟨rfl, rfl⟩
  | ok r =>
    simp only []
    cases r.account with
    | none => exact ⟨rfl, rfl⟩
    | some account =>
      simp only []
      cases req.order with
      | none =>
        simp only [Outcome.state, SET_ACCOUNT_activeAccountIndex,
          SET_ACCOUNT_activeAccountAddress, and_self]
      | some order =>
        simp only []
        split <;>
          simp only [Outcome.state, MOVE_ACCOUNT_activeAccountIndex,
            MOVE_ACCOUNT_activeAccountAddress, SET_ACCOUNT_activeAccountIndex,
            SET_ACCOUNT_activeAccountAddress, and_self]

/-- C18: `MOVE_ACCOUNT`, and `UPDATE_ACCOUNT` with its reorder, leave `activeAccountIndex`
and `activeAccountAddress` as they were, for every state and arguments; so the current
account can change: in `[A, B]` with `activeAccountIndex = 0`, after `moveAccount(0, 1)`
the getter `currentAccount` returns `B` where it returned `A`. -/
theorem move_keeps_active_index (W : Wallet) (s : State) (from_ to_ : Int)
    (_accountData : UpdateRequest) :
    (MOVE_ACCOUNT s from_ to_).activeAccountIndex = s.activeAccountIndex ∧
    (MOVE_ACCOUNT s from_ to_).activeAccountAddress = s.activeAccountAddress ∧
    (UPDATE_ACCOUNT W s _accountData).state.activeAccountIndex = s.activeAccountIndex ∧
    (UPDATE_ACCOUNT W s _accountData).state.activeAccountAddress = s.activeAccountAddress ∧
    currentAccount (registryOf ["A", "B"] 0) = some (accountAt "A") ∧
    currentAccount (MOVE_ACCOUNT (registryOf ["A", "B"] 0) 0 1) = some (accountAt "B") ∧
    currentAccount (MOVE_ACCOUNT (registryOf ["A", "B"] 0) 0 1) ≠
      currentAccount (registryOf ["A", "B"] 0) := by
  refine ⟨MOVE_ACCOUNT_activeAccountIndex s from_ to_, MOVE_ACCOUNT_activeAccountAddress s from_ to_,
    (UPDATE_ACCOUNT_active W s _accountData).1, (UPDATE_ACCOUNT_active W s _accountData).2,
    ?_, ?_, ?_⟩ <;> decide

/-- C20: the two lookups agree on every state. When `getAccountAndIndexByAddress` raises
so does `getAccountByAddress`; when it returns `{account, index}`, `getAccountByAddress`
returns that same `account`, which is an account exactly when `index > -1`, and is then
the element at `index`. On an array of accounts both return. -/
theorem lookups_agree (W : Wallet) (s : State) (accs : List Account) (_address : String) :
    (∀ e : JsError, getAccountAndIndexByAddress W s _address = .error e →
      getAccountByAddress W s _address = .error e) ∧
    (∀ r : Lookup, getAccountAndIndexByAddress W s _address = .ok r →
      getAccountByAddress W s _address = .ok r.account ∧
      (r.account ≠ none ↔ r.index > -1) ∧
      (r.index > -1 → r.account = elemAt s.accounts r.index)) ∧
    (∃ r : Lookup,
      getAccountAndIndexByAddress W { s with accounts := accs.map some } _address = .ok r ∧
      getAccountByAddress W { s with accounts := accs.map some } _address = .ok r.account) := by
  have key : ∀ (t : State) (r : Lookup), getAccountAndIndexByAddress W t _address = .ok r →
      getAccountByAddress W t _address = .ok r.account ∧
      (r.account ≠ none ↔ r.index > -1) ∧
      (r.index > -1 → r.account = elemAt t.accounts r.index) := by
    intro t r h
    simp only [getAccountAndIndexByAddress] at h
    cases hscan : scanByAddress t.accounts (W.toChecksumAddress _address) 0 with
    | error e => rw [hscan] at h; cases h
    | ok o =>
      rw [hscan] at h
      cases o with
      | none =>
        simp only [Except.ok.injEq] at h
        subst h
        refine ⟨findByAddress_of_scan_none _ _ _ hscan, ?_, ?_⟩
        · simp
        · intro hc
          simp at hc
      | some k =>
        simp only [Except.ok.injEq] at h
        subst h
        obtain ⟨a, ha, _, hget⟩ := findByAddress_of_scan_some _ _ _ _ hscan
        have hn : ¬ ((k : Int) < 0) := by omega
        have hel : elemAt t.accounts (k : Int) = some a := by
          simp only [elemAt, hn, if_false, Int.toNat_ofNat, Nat.sub_zero] at hget ⊢
          rw [hget]
          rfl
        refine ⟨?_, ?_, fun _ => rfl⟩
        · simp only [getAccountByAddress, ha, hel]
        · simp only [hel]
          constructor
          · intro _
            omega
          · intro _ hc
            cases hc
  refine ⟨?_, key s, ?_⟩
  · intro e h
    simp only [getAccountAndIndexByAddress] at h
    cases hscan : scanByAddress s.accounts (W.toChecksumAddress _address) 0 with
    | error e2 =>
      cases e
      cases e2
      exact findByAddress_of_scan_error _ _ _ _ hscan
    | ok o =>
      rw [hscan] at h
      cases o <;> cases h
  · obtain ⟨r, hr⟩ := getAccountAndIndexByAddress_dense_ok W s accs _address
    exact ⟨r, hr, (key _ r hr).1⟩

theorem updateAccountsBalancesVisits_fst (W : Wallet) :
    ∀ (n i : Nat) (s : State),
      (updateAccountsBalancesVisits W n i s).1 = updateAccountsBalancesLoop W n i s
  | 0, _, _ => rfl
  | n + 1, i, s => by
    simp only [updateAccountsBalancesVisits, updateAccountsBalancesLoop]
    cases elemAt s.accounts (i : Int) with
    | none => rfl
    | some account => exact updateAccountsBalancesVisits_fst W n (i + 1) _

theorem set_length_append {α : Type} (b : α) :
    ∀ (pre : List α) (a : α) (rest : List α),
      (pre ++ a :: rest).set pre.length b = pre ++ b :: rest
  | [], _, _ => rfl
  | x :: pre, a, rest => by
    simp only [List.cons_append, List.length_cons, List.set_cons_succ,
      set_length_append b pre a rest]

theorem elemAt_length_append (pre : List Account) (a : Account) (rest : List Account) :
    elemAt ((pre ++ a :: rest).map some) (pre.length : Int) = some a := by
  have h := elemAt_dense (pre ++ a :: rest) pre.length (by simp)
  rw [h, List.getElem_append_right (Nat.le_refl _)]
  simp

/-- The loop on an array of accounts: with the positions before `pre.length` done and the
records `todo` left, it completes, refreshes every record of `todo` in place and fetches
the balances of the positions `pre.length, pre.length + 1, ...` in that order. -/
theorem updateAccountsBalancesVisits_dense (W : Wallet) (base : State) :
    ∀ (todo pre : List Account),
      updateAccountsBalancesVisits W todo.length pre.length
          { base with accounts := (pre ++ todo).map some } =
        (.done { base with accounts := (pre ++ todo.map (refreshed W)).map some },
          List.range' pre.length todo.length)
  | [], pre => by simp [updateAccountsBalancesVisits]
  | a :: todo, pre => by
    have hlt : pre.length < ((pre ++ a :: todo).map some).length := by simp
    have hset : SET_ACCOUNT { base with accounts := (pre ++ a :: todo).map some }
        { index := some (pre.length : Int), account := refreshed W a } =
        { base with accounts := ((pre ++ [refreshed W a]) ++ todo).map some } := by
      rw [SET_ACCOUNT_at _ pre.length hlt]
      simp only [← List.map_set, set_length_append, List.append_assoc, List.singleton_append]
    have ih := updateAccountsBalancesVisits_dense W base todo (pre ++ [refreshed W a])
    simp only [List.length_append, List.length_singleton, List.append_assoc,
      List.singleton_append] at ih
    have hset2 : SET_ACCOUNT { base with accounts := (pre ++ a :: todo).map some }
        { index := some (pre.length : Int),
          account := { a with
            balance := some (W.getBalance a.address).balance,
            totalBalance := some (W.getBalance a.address).totalValue } } =
        { base with accounts := ((pre ++ [refreshed W a]) ++ todo).map some } := hset
    simp only [List.append_assoc, List.singleton_append] at hset2
    simp only [List.length_cons, updateAccountsBalancesVisits, elemAt_length_append, hset2, ih,
      List.range'_succ, List.map_cons, List.append_assoc, List.singleton_append]

/-- C12: on an array of accounts, `UPDATE_ACCOUNTS_BALANCES` (no other mutation in
between, `getBalance` a function of the address) completes; it fetches the balance of
the positions `0, 1, ..., length - 1`, each once and in this order; the resulting array
has the same length and holds at each position the original record with only `balance`
and `totalBalance` replaced by what `getBalance` returns for its address; the addresses
keep their order and the rest of the state (so `activeAccountIndex`) is unchanged. -/
theorem refreshAllBalances_spec (W : Wallet) (base : State) (accs : List Account) :
    UPDATE_ACCOUNTS_BALANCES W { base with accounts := accs.map some } =
      .done { base with accounts := (accs.map (refreshed W)).map some } ∧
    updateAccountsBalancesVisits W accs.length 0 { base with accounts := accs.map some } =
      (UPDATE_ACCOUNTS_BALANCES W { base with accounts := accs.map some },
        List.range accs.length) ∧
    (accs.map (refreshed W)).length = accs.length ∧
    (∀ i : Nat, (accs.map (refreshed W)).get? i = (accs.get? i).map (refreshed W)) ∧
    (accs.map (refreshed W)).map (fun a => a.address) = accs.map (fun a => a.address) := by
  have h := updateAccountsBalancesVisits_dense W base accs []
  simp only [List.length_nil, List.nil_append] at h
  have hrun : UPDATE_ACCOUNTS_BALANCES W { base with accounts := accs.map some } =
      .done { base with accounts := (accs.map (refreshed W)).map some } := by
    simp only [UPDATE_ACCOUNTS_BALANCES, accounts, List.length_map]
    rw [← updateAccountsBalancesVisits_fst, h]
  refine ⟨hrun, ?_, List.length_map _ _, ?_, ?_⟩
  · rw [h, hrun, List.range_eq_range']
  · intro i
    simp only [List.get?_eq_getElem?, List.getElem?_map]
  · simp only [List.map_map]
    rfl

/-- C19: on an array of accounts with pairwise distinct addresses, each a fixed point of
`toChecksumAddress`, and with `0 <= activeAccountIndex < length`, `UPDATE_ACCOUNT_BALANCE`
without an argument completes and replaces the active record by itself with `balance`
and `totalBalance` set to what `getBalance` returns for its address; the length, every
other position and `activeAccountIndex` are unchanged. -/
theorem refreshOneBalance_current (W : Wallet) (base : State) (accs : List Account) (i : Nat)
    (hi : i < accs.length) (hn : (accs.map (fun a => a.address)).Nodup)
    (hfix : ∀ a ∈ accs, W.toChecksumAddress a.address = a.address) :
    UPDATE_ACCOUNT_BALANCE W
        { base with accounts := accs.map some, activeAccountIndex := (i : Int) } none =
      .done { base with accounts := (accs.set i (refreshed W accs[i])).map some,
                        activeAccountIndex := (i : Int) } ∧
    (accs.set i (refreshed W accs[i])).length = accs.length ∧
    (accs.set i (refreshed W accs[i])).get? i = some (refreshed W accs[i]) ∧
    (∀ j : Nat, j ≠ i → (accs.set i (refreshed W accs[i])).get? j = accs.get? j) := by
  refine ⟨?_, List.length_set _ _ _, ?_, ?_⟩
  · have hg : ((i : Int) > -1) := by omega
    have hcur : currentAccount
        { base with accounts := accs.map some, activeAccountIndex := (i : Int) } =
        some accs[i] := by
      simp only [currentAccount, hg, if_true, elemAt_dense accs i hi]
    have hlook := getAccountAndIndexByAddress_dense W
      { base with activeAccountIndex := (i : Int) } accs accs[i].address i hi hn
      (hfix _ (List.getElem_mem hi)).symm
    have hlen : i < (accs.map some).length := by simpa using hi
    have hset := SET_ACCOUNT_at
      { base with accounts := accs.map some, activeAccountIndex := (i : Int) } i hlen
      (refreshed W accs[i])
    simp only [UPDATE_ACCOUNT_BALANCE, hcur, Option.none_orElse, HOrElse.hOrElse, OrElse.orElse,
      Option.orElse, hlook, hg, if_true]
    exact congrArg Outcome.done (hset.trans (by simp only [List.map_set]))
  · rw [List.get?_eq_getElem?, List.getElem?_set_self hi]
  · intro j hj
    rw [List.get?_eq_getElem?, List.get?_eq_getElem?, List.getElem?_set_ne (Ne.symm hj)]

/-- An instance of C19: `[0xABC, 0xdef]` with the second account active. -/
theorem refreshOneBalance_current_witness :
    UPDATE_ACCOUNT_BALANCE sampleWallet
        { initialState with accounts := [accountAt "0xABC", accountAt "0xdef"].map some,
                            activeAccountIndex := ((1 : Nat) : Int) } none =
      .done { initialState with
        accounts := ([accountAt "0xABC", accountAt "0xdef"].set 1
          (refreshed sampleWallet (accountAt "0xdef"))).map some,
        activeAccountIndex := ((1 : Nat) : Int) } ∧
    ([accountAt "0xABC", accountAt "0xdef"].set 1
      (refreshed sampleWallet (accountAt "0xdef"))).length = 2 ∧
    ([accountAt "0xABC", accountAt "0xdef"].set 1
      (refreshed sampleWallet (accountAt "0xdef"))).get? 1 =
      some (refreshed sampleWallet (accountAt "0xdef")) ∧
    (∀ j : Nat, j ≠ 1 → ([accountAt "0xABC", accountAt "0xdef"].set 1
      (refreshed sampleWallet (accountAt "0xdef"))).get? j =
      [accountAt "0xABC", accountAt "0xdef"].get? j) :=
  refreshOneBalance_current sampleWallet initialState [accountAt "0xABC", accountAt "0xdef"] 1
    (by decide) (by decide)
    (fun a ha => by
      have h2 : a = accountAt "0xABC" ∨ a = accountAt "0xdef" := by simpa using ha
      rcases h2 with h2 | h2 <;> rw [h2] <;> decide)

theorem getAccountAndIndexByAddress_dense_first (W : Wallet) (base : State)
    (accs : List Account) (x : String) (i : Nat) (hi : i < accs.length)
    (hfound : accs[i].address = W.toChecksumAddress x)
    (hfirst : ∀ (j : Nat) (hj : j < i), accs[j].address ≠ W.toChecksumAddress x) :
    getAccountAndIndexByAddress W { base with accounts := accs.map some } x =
      .ok { account := some accs[i], index := (i : Int) } := by
  simp only [getAccountAndIndexByAddress,
    scanByAddress_dense_first _ accs 0 i hi hfound hfirst, Nat.zero_add, elemAt_dense accs i hi]

/-- On an array of accounts, a request whose checksummed address is first stored at
position `i` completes: the record of position `i`, with the name the action computes,
then sits at some position `p` among the other records, which are as before. -/
theorem UPDATE_ACCOUNT_first (W : Wallet) (base : State) (accs : List Account)
    (req : UpdateRequest) (i : Nat) (hi : i < accs.length)
    (hfound : accs[i].address = W.toChecksumAddress req.address)
    (hfirst : ∀ (j : Nat) (hj : j < i), accs[j].address ≠ W.toChecksumAddress req.address)
    (name : Option String)
    (hname : name = if req.name ≠ some accs[i].address then req.name else some "") :
    ∃ p : Nat, p < accs.length ∧
      UPDATE_ACCOUNT W { base with accounts := accs.map some } req =
        .done { base with accounts :=
          ((accs.eraseIdx i).insertIdx p { accs[i] with name := name }).map some } := by
  have hlen : i < (accs.map some).length := by simpa using hi
  have hs1 : SET_ACCOUNT { base with accounts := accs.map some }
      { index := some (i : Int), account := { accs[i] with name := name } } =
      { base with accounts := (accs.set i { accs[i] with name := name }).map some } := by
    rw [SET_ACCOUNT_at _ i hlen]
    simp only [List.map_set]
  have hins := set_eq_insertIdx_eraseIdx { accs[i] with name := name } accs i hi
  simp only [UPDATE_ACCOUNT,
    getAccountAndIndexByAddress_dense_first W base accs req.address i hi hfound hfirst,
    ← hname, hs1]
  cases req.order with
  | none => exact ⟨i, hi, by rw [hins]⟩
  | some order =>
    simp only []
    by_cases hmove : order - 1 ≠ (i : Int)
    · rw [if_pos hmove]
      by_cases hvalid : 0 ≤ order - 1 ∧ order - 1 < (accs.length : Int)
      · obtain ⟨hv0, hv1⟩ := hvalid
        obtain ⟨t, ht⟩ := Int.eq_ofNat_of_zero_le hv0
        have htlt : t < accs.length := by omega
        have hti : i ≠ t := by omega
        refine ⟨t, htlt, ?_⟩
        rw [ht, MOVE_ACCOUNT_valid _ i t hti (by simpa using hi) (by simpa using htlt)]
        simp only [map_eraseIdx_some, eraseIdx_set_self, List.getElem_map,
          List.getElem_set_self, map_insertIdx_some]
      · refine ⟨i, hi, ?_⟩
        rw [MOVE_ACCOUNT_invalid, hins]
        simp only [List.length_map, List.length_set]
        omega
    · rw [if_neg hmove]
      exact ⟨i, hi, by rw [hins]⟩

/-- C11 as stated fails: in the registry `[0xABC]` the request with address `0xabc` and
the same `0xabc` as name is found (its checksummed address is `0xABC`), but the name is
compared with the stored address `0xABC`, so it is stored as `0xabc`, not cleared. -/
theorem rename_with_raw_address_not_cleared :
    UPDATE_ACCOUNT sampleWallet (registryOf ["0xABC"] (-1))
        { address := "0xabc", name := some "0xabc", order := none } =
      .done { registryOf ["0xABC"] (-1) with
        accounts := [some { accountAt "0xABC" with name := some "0xabc" }] } ∧
    (UPDATE_ACCOUNT sampleWallet (registryOf ["0xABC"] (-1))
        { address := "0xabc", name := some "0xabc", order := none }).state.accounts ≠
      [some { accountAt "0xABC" with name := some "" }] := by
  decide

/-- C11, amended: on an array of accounts, for a request whose name is the checksummed
form of its address, `toChecksumAddress(address)`, that is the stored address of the
account the lookup finds (the first one holding it, at position `i`), `UPDATE_ACCOUNT`
completes and that account, every other field as before, has the empty string as name;
the other records are as before. -/
theorem rename_with_stored_address_cleared (W : Wallet) (base : State) (accs : List Account)
    (req : UpdateRequest) (i : Nat) (hi : i < accs.length)
    (hfound : accs[i].address = W.toChecksumAddress req.address)
    (hfirst : ∀ (j : Nat) (hj : j < i), accs[j].address ≠ W.toChecksumAddress req.address)
    (hname : req.name = some (W.toChecksumAddress req.address)) :
    ∃ (accs1 : List Account) (p : Nat) (hp : p < accs1.length),
      UPDATE_ACCOUNT W { base with accounts := accs.map some } req =
        .done { base with accounts := accs1.map some } ∧
      accs1[p] = { accs[i] with name := some "" } ∧
      accs1.eraseIdx p = accs.eraseIdx i := by
  have hn : some "" = if req.name ≠ some accs[i].address then req.name else some "" := by
    rw [hname, hfound]
    simp
  obtain ⟨p, hp, hrun⟩ := UPDATE_ACCOUNT_first W base accs req i hi hfound hfirst (some "") hn
  have hple : p ≤ (accs.eraseIdx i).length := by
    rw [List.length_eraseIdx]
    simp only [hi, if_true]
    omega
  have hlen : ((accs.eraseIdx i).insertIdx p { accs[i] with name := some "" }).length =
      accs.length := by
    rw [List.length_insertIdx _ _ hple, List.length_eraseIdx]
    simp only [hi, if_true]
    omega
  exact ⟨(accs.eraseIdx i).insertIdx p { accs[i] with name := some "" }, p,
    by rw [hlen]; exact hp, hrun, List.getElem_insertIdx_self _ _ _ hple,
    List.eraseIdx_insertIdx p _⟩

/-- An instance of the amended C11: `[0xABC]` and the request with address `0xabc` and
name `0xABC`. -/
theorem rename_with_stored_address_cleared_witness :
    UPDATE_ACCOUNT sampleWallet (registryOf ["0xABC"] (-1))
        { address := "0xabc", name := some "0xABC", order := none } =
      .done { registryOf ["0xABC"] (-1) with
        accounts := [some { accountAt "0xABC" with name := some "" }] } ∧
    ∃ (accs1 : List Account) (p : Nat) (hp : p < accs1.length),
      UPDATE_ACCOUNT sampleWallet { initialState with accounts := [accountAt "0xABC"].map some }
          { address := "0xabc", name := some "0xABC", order := none } =
        .done { initialState with accounts := accs1.map some } ∧
      accs1[p] = { accountAt "0xABC" with name := some "" } ∧
      accs1.eraseIdx p = [accountAt "0xABC"].eraseIdx 0 :=
  ⟨by decide,
   rename_with_stored_address_cleared sampleWallet initialState [accountAt "0xABC"]
     { address := "0xabc", name := some "0xABC", order := none } 0 (by decide) (by decide)
     (fun j hj => absurd hj (Nat.not_lt_zero j)) (by decide)⟩

/-- The action is its check followed, when the check passes, by its commit. -/
theorem ADD_LEDGER_ACCOUNT_eq_check_commit (W : Wallet) (s : State) (a : Account) :
    ADD_LEDGER_ACCOUNT W s a =
      match ledgerCheck W s a with
      | .error _ => .thrown s
      | .ok false => .done s
      | .ok true => ledgerCommit W s a := by
  simp only [ADD_LEDGER_ACCOUNT, ledgerCheck, ledgerCommit]
  cases getAccountByAddress W s (W.toChecksumAddress a.address) with
  | error e => rfl
  | ok found =>
    cases found with
    | none => rfl
    | some b => rfl

theorem findByAddress_append_found (address : String) (acc : Account)
    (hacc : acc.address = address) :
    ∀ (xs : List Slot), findByAddress xs address = .ok none →
      findByAddress (xs ++ [some acc]) address = .ok (some acc)
  | [], _ => by simp only [List.nil_append, findByAddress, hacc, if_true]
  | none :: _, h => by simp [findByAddress] at h
  | some a :: xs, h => by
    by_cases ha : a.address = address
    · simp [findByAddress, ha] at h
    · simp only [findByAddress, ha, if_false] at h
      simp only [List.cons_append, findByAddress, ha, if_false]
      exact findByAddress_append_found address acc hacc xs h

theorem count_storedAddresses_absent (address : String) :
    ∀ (xs : List Slot), (∀ x ∈ xs, ∃ b : Account, x = some b ∧ b.address ≠ address) →
      (storedAddresses xs).count address = 0 := by
  intro xs h
  rw [List.count_eq_zero]
  intro hmem
  obtain ⟨b, hb, hbb⟩ := mem_storedAddresses.mp hmem
  obtain ⟨c, hc, hcc⟩ := h _ hb
  cases hc
  exact hcc hbb

/-- Two commits for the same address on top of each other: when the address is not yet
stored and the array can be searched, the first appends, the second changes nothing. -/
theorem ledgerCommit_twice (W : Wallet) (s : State) (a1 a2 : Account)
    (hsame : W.toChecksumAddress a1.address = W.toChecksumAddress a2.address)
    (hnew : findByAddress s.accounts (W.toChecksumAddress a1.address) = .ok none) :
    ∃ acc : Account, acc.address = W.toChecksumAddress a1.address ∧
      ledgerCommit W s a1 = .done { s with accounts := s.accounts ++ [some acc] } ∧
      ledgerCommit W { s with accounts := s.accounts ++ [some acc] } a2 =
        .done { s with accounts := s.accounts ++ [some acc] } ∧
      (storedAddresses (s.accounts ++ [some acc])).count (W.toChecksumAddress a1.address) = 1 := by
  refine ⟨{ a1 with
      address := W.toChecksumAddress a1.address,
      balance := some (W.getBalance (W.toChecksumAddress a1.address)).balance,
      totalBalance := some (W.getBalance (W.toChecksumAddress a1.address)).totalValue,
      isLedgerAccount := some true }, rfl, ?_, ?_, ?_⟩
  · simp only [ledgerCommit, APPEND_ACCOUNT, hnew]
  · have hf := findByAddress_append_found (W.toChecksumAddress a1.address)
      { a1 with
        address := W.toChecksumAddress a1.address,
        balance := some (W.getBalance (W.toChecksumAddress a1.address)).balance,
        totalBalance := some (W.getBalance (W.toChecksumAddress a1.address)).totalValue,
        isLedgerAccount := some true } rfl s.accounts hnew
    simp only [ledgerCommit, APPEND_ACCOUNT, ← hsame, hf]
  · rw [storedAddresses_append_one, List.count_append,
      count_storedAddresses_absent _ _ (findByAddress_ok_none _ _ hnew)]
    simp

theorem findByAddress_absent (address : String) :
    ∀ (xs : List Slot), (∀ x ∈ xs, ∃ b : Account, x = some b ∧ b.address ≠ address) →
      findByAddress xs address = .ok none
  | [], _ => rfl
  | none :: _, h => by
    obtain ⟨b, hb, _⟩ := h none (List.mem_cons_self _ _)
    cases hb
  | some a :: xs, h => by
    obtain ⟨b, hb, hne⟩ := h (some a) (List.mem_cons_self _ _)
    cases hb
    simp only [findByAddress, hne, if_false]
    exact findByAddress_absent address xs (fun x hx => h x (List.mem_cons_of_mem _ hx))

/-- A passed check means the array was searched to its end, so it has no hole. -/
theorem ledgerCheck_passed_dense (W : Wallet) (s : State) (a : Account)
    (h : ledgerCheck W s a = .ok true) : ∀ x ∈ s.accounts, ∃ b : Account, x = some b := by
  simp only [ledgerCheck, getAccountByAddress] at h
  cases hf : findByAddress s.accounts (W.toChecksumAddress (W.toChecksumAddress a.address)) with
  | error e => rw [hf] at h; cases h
  | ok found =>
    rw [hf] at h
    cases found with
    | some b => simp at h
    | none =>
      intro x hx
      obtain ⟨b, hb, _⟩ := findByAddress_ok_none _ _ hf x hx
      exact ⟨b, hb⟩

/-- The interleaving of two calls for the same new address, both checks passed: the
first commit appends one record with that address, the second commit changes nothing. -/
theorem ledgerRace_spec (W : Wallet) (s : State) (a1 a2 : Account)
    (hsame : W.toChecksumAddress a1.address = W.toChecksumAddress a2.address)
    (hnew : W.toChecksumAddress a1.address ∉ storedAddresses s.accounts)
    (h1 : ledgerCheck W s a1 = .ok true) (h2 : ledgerCheck W s a2 = .ok true) :
    ∃ acc : Account, acc.address = W.toChecksumAddress a1.address ∧
      ledgerCommit W s a1 = .done { s with accounts := s.accounts ++ [some acc] } ∧
      ledgerCommit W { s with accounts := s.accounts ++ [some acc] } a2 =
        .done { s with accounts := s.accounts ++ [some acc] } ∧
      ledgerRace W s a1 a2 = { s with accounts := s.accounts ++ [some acc] } ∧
      (storedAddresses (ledgerRace W s a1 a2).accounts).count
        (W.toChecksumAddress a1.address) = 1 := by
  have habs : ∀ x ∈ s.accounts, ∃ b : Account, x = some b ∧
      b.address ≠ W.toChecksumAddress a1.address := by
    intro x hx
    obtain ⟨b, hb⟩ := ledgerCheck_passed_dense W s a1 h1 x hx
    refine ⟨b, hb, fun hbb => hnew (mem_storedAddresses.mpr ⟨b, hb ▸ hx, hbb⟩)⟩
  obtain ⟨acc, hacc, hc1, hc2, hcount⟩ :=
    ledgerCommit_twice W s a1 a2 hsame (findByAddress_absent _ _ habs)
  have hrace : ledgerRace W s a1 a2 = { s with accounts := s.accounts ++ [some acc] } := by
    simp only [ledgerRace, h1, h2, hc1, Outcome.state, hc2]
  exact ⟨acc, hacc, hc1, hc2, hrace, by rw [hrace]; exact hcount⟩

/-- C17 as stated fails: no interleaving of two `ADD_LEDGER_ACCOUNT` calls for the same
new address in which both pass their check before either commits ends with two accounts
of that address, because `APPEND_ACCOUNT` repeats the duplicate check when it commits.
From the empty registry, two such calls for `0xabc` leave the single address `0xABC`. -/
theorem ledgerRace_never_duplicates :
    (ledgerCheck sampleWallet initialState (accountAt "0xabc") = .ok true ∧
      storedAddresses (ledgerRace sampleWallet initialState (accountAt "0xabc")
        (accountAt "0xabc")).accounts = ["0xABC"]) ∧
    ¬ ∃ (W : Wallet) (s : State) (a1 a2 : Account),
      W.toChecksumAddress a1.address = W.toChecksumAddress a2.address ∧
      W.toChecksumAddress a1.address ∉ storedAddresses s.accounts ∧
      ledgerCheck W s a1 = .ok true ∧ ledgerCheck W s a2 = .ok true ∧
      2 ≤ (storedAddresses (ledgerRace W s a1 a2).accounts).count
        (W.toChecksumAddress a1.address) := by
  refine ⟨⟨rfl, by decide⟩, ?_⟩
  rintro ⟨W, s, a1, a2, hsame, hnew, h1, h2, hcount⟩
  obtain ⟨_, _, _, _, _, hone⟩ := ledgerRace_spec W s a1 a2 hsame hnew h1 h2
  omega

/-- C17, amended: when two `ADD_LEDGER_ACCOUNT` calls for the same new address both pass
their duplicate check before either commits, both commit `APPEND_ACCOUNT`, but only the
first commit appends: the second finds the record of the first and leaves the array as
it is, so the array ends with exactly one account of that address, and addresses that
were pairwise distinct stay so. -/
theorem ledgerRace_appends_once (W : Wallet) (s : State) (a1 a2 : Account)
    (hsame : W.toChecksumAddress a1.address = W.toChecksumAddress a2.address)
    (hnew : W.toChecksumAddress a1.address ∉ storedAddresses s.accounts)
    (h1 : ledgerCheck W s a1 = .ok true) (h2 : ledgerCheck W s a2 = .ok true) :
    (∃ acc : Account, acc.address = W.toChecksumAddress a1.address ∧
      ledgerCommit W s a1 = .done { s with accounts := s.accounts ++ [some acc] } ∧
      ledgerCommit W { s with accounts := s.accounts ++ [some acc] } a2 =
        .done { s with accounts := s.accounts ++ [some acc] } ∧
      ledgerRace W s a1 a2 = { s with accounts := s.accounts ++ [some acc] }) ∧
    (storedAddresses (ledgerRace W s a1 a2).accounts).count
      (W.toChecksumAddress a1.address) = 1 ∧
    (AddressesDistinct s → AddressesDistinct (ledgerRace W s a1 a2)) := by
  obtain ⟨acc, hacc, hc1, hc2, hrace, hone⟩ := ledgerRace_spec W s a1 a2 hsame hnew h1 h2
  refine ⟨⟨acc, hacc, hc1, hc2, hrace⟩, hone, ?_⟩
  intro hd
  rw [hrace]
  unfold AddressesDistinct at hd ⊢
  rw [storedAddresses_append_one, hacc]
  refine List.Nodup.append hd (List.nodup_singleton _) ?_
  intro x hx1 hx2
  rw [List.mem_singleton] at hx2
  exact hnew (hx2 ▸ hx1)

/-- An instance of the amended C17: two calls for `0xabc` on the registry `[0xdef]`. -/
theorem ledgerRace_appends_once_witness :
    (∃ acc : Account, acc.address = sampleWallet.toChecksumAddress (accountAt "0xabc").address ∧
      ledgerCommit sampleWallet (registryOf ["0xdef"] (-1)) (accountAt "0xabc") =
        .done { registryOf ["0xdef"] (-1) with
          accounts := (registryOf ["0xdef"] (-1)).accounts ++ [some acc] } ∧
      ledgerCommit sampleWallet
          { registryOf ["0xdef"] (-1) with
            accounts := (registryOf ["0xdef"] (-1)).accounts ++ [some acc] }
          (accountAt "0xabc") =
        .done { registryOf ["0xdef"] (-1) with
          accounts := (registryOf ["0xdef"] (-1)).accounts ++ [some acc] } ∧
      ledgerRace sampleWallet (registryOf ["0xdef"] (-1)) (accountAt "0xabc")
          (accountAt "0xabc") =
        { registryOf ["0xdef"] (-1) with
          accounts := (registryOf ["0xdef"] (-1)).accounts ++ [some acc] }) ∧
    (storedAddresses (ledgerRace sampleWallet (registryOf ["0xdef"] (-1)) (accountAt "0xabc")
      (accountAt "0xabc")).accounts).count
      (sampleWallet.toChecksumAddress (accountAt "0xabc").address) = 1 ∧
    (AddressesDistinct (registryOf ["0xdef"] (-1)) →
      AddressesDistinct (ledgerRace sampleWallet (registryOf ["0xdef"] (-1))
        (accountAt "0xabc") (accountAt "0xabc"))) :=
  ledgerRace_appends_once sampleWallet (registryOf ["0xdef"] (-1)) (accountAt "0xabc")
    (accountAt "0xabc") rfl (by decide) rfl rfl

end Store
